import Mathlib

/-!
Shallow embedding of the franchise-name → FRUNS matching pipeline
(`normalize_franchise_names.py` and `match_to_fruns.py`).

Conventions:
* Python scalar cell values are modelled by `PyVal` (`None`, `NaN`, strings,
  ints); `pd.isna` is `PyVal.isNA`, `str(x)` is `PyVal.pyStr`.
* DataFrames are modelled as Lean lists of rows/records; pandas joins are
  modelled as the corresponding list joins, with `validate="m:1"` modelled as
  an explicit right-key `Nodup` check returning `Except.error "MergeError"`.
* The regex-based term removal of `_sanitize_single` operates, at the point
  the patterns run, on strings that are single-space-separated lowercase
  alphanumeric words; on such strings the anchored patterns act word-wise,
  which is how they are embedded here (see `dropTrailingRev`, `findTermsIn`).
* Unicode handling (`str.lower`, NFD transliteration) is modelled by explicit
  character tables covering the Latin letters exercised by the development;
  characters outside the table are untouched (they are later replaced by
  spaces exactly as in the source's `[^a-zA-Z0-9]` step).
* `rapidfuzz` Jaro-Winkler similarity is kept as an explicit function
  parameter `sim : String → String → ℚ` of the fuzzy stage; the stage's
  candidate-selection and threshold logic (`process.extractOne` with
  `score_cutoff`, rounding, strict comparison) is embedded from the source.
  Python's `round(_, 4)` (round-half-to-even) is `round4` on ℚ.
-/

/-- Python scalar values that can appear in a name column:
`None`, a float `NaN`, a string, or a non-string scalar such as an int. -/
inductive PyVal where
  | none : PyVal
  | nan : PyVal
  | str : String → PyVal
  | int : Int → PyVal
deriving DecidableEq, Repr

namespace PyVal

/-- `x is None or pd.isna(x)` for scalars. -/
def isNA : PyVal → Bool
  | .none => true
  | .nan => true
  | _ => false

/-- Python `str(x)`. -/
def pyStr : PyVal → String
  | .none => "None"
  | .nan => "nan"
  | .str s => s
  | .int n => toString n

/-- Python truthiness of a scalar (`if x ...`): empty string and `0` are
falsy; `None` is falsy; float `nan` is truthy. -/
def truthy : PyVal → Bool
  | .none => false
  | .nan => true
  | .str s => s ≠ ""
  | .int n => n ≠ 0

end PyVal

/-- ASCII lowercasing plus the uppercase accented Latin letters covered by
the embedding's transliteration table (models `str.lower`). -/
def lowerChar (c : Char) : Char :=
  if 'A' ≤ c ∧ c ≤ 'Z' then Char.ofNat (c.toNat + 32)
  else match c with
    | 'É' => 'é' | 'È' => 'è' | 'Ê' => 'ê' | 'Ë' => 'ë'
    | 'Á' => 'á' | 'À' => 'à' | 'Â' => 'â' | 'Ä' => 'ä' | 'Ã' => 'ã' | 'Å' => 'å'
    | 'Í' => 'í' | 'Ì' => 'ì' | 'Î' => 'î' | 'Ï' => 'ï'
    | 'Ó' => 'ó' | 'Ò' => 'ò' | 'Ô' => 'ô' | 'Ö' => 'ö' | 'Õ' => 'õ'
    | 'Ú' => 'ú' | 'Ù' => 'ù' | 'Û' => 'û' | 'Ü' => 'ü'
    | 'Ñ' => 'ñ' | 'Ç' => 'ç' | 'Ý' => 'ý'
    | _ => c

/-- The special symbols removed before transliteration:
`[®™©℠ªº°]`. -/
def isSpecialSymbol (c : Char) : Bool :=
  c = '®' ∨ c = '™' ∨ c = '©' ∨ c = '℠' ∨ c = 'ª' ∨ c = 'º' ∨ c = '°'

/-- NFD transliteration of accented characters to their ASCII base letter
(models `_transliterate_to_ascii` on the lowercase Latin letters covered by
the table; other characters pass through unchanged). -/
def translitChar (c : Char) : Char :=
  match c with
  | 'é' => 'e' | 'è' => 'e' | 'ê' => 'e' | 'ë' => 'e'
  | 'á' => 'a' | 'à' => 'a' | 'â' => 'a' | 'ä' => 'a' | 'ã' => 'a' | 'å' => 'a'
  | 'í' => 'i' | 'ì' => 'i' | 'î' => 'i' | 'ï' => 'i'
  | 'ó' => 'o' | 'ò' => 'o' | 'ô' => 'o' | 'ö' => 'o' | 'õ' => 'o'
  | 'ú' => 'u' | 'ù' => 'u' | 'û' => 'u' | 'ü' => 'u'
  | 'ñ' => 'n' | 'ç' => 'c' | 'ý' => 'y'
  | _ => c

/-- Apostrophe variants, grave/acute accents, commas and periods removed with
no replacement: `['‘’‚‛ʼʹ`´,.]`
(code points 39, 8216, 8217, 8218, 8219, 700, 697, 96, 180, 44, 46). -/
def isJoiner (c : Char) : Bool :=
  c.toNat = 39 ∨ c.toNat = 8216 ∨ c.toNat = 8217 ∨ c.toNat = 8218 ∨
  c.toNat = 8219 ∨ c.toNat = 700 ∨ c.toNat = 697 ∨ c.toNat = 96 ∨
  c.toNat = 180 ∨ c.toNat = 44 ∨ c.toNat = 46

/-- `[^a-zA-Z0-9]` complement: characters kept (not replaced by a space). -/
def isAlnum (c : Char) : Bool :=
  ('a' ≤ c ∧ c ≤ 'z') ∨ ('A' ≤ c ∧ c ≤ 'Z') ∨ ('0' ≤ c ∧ c ≤ '9')

/-- Split a character list into maximal nonempty space-free words
(models splitting the space-normalized string on whitespace). -/
def splitWordsAux (cur : List Char) : List Char → List String
  | [] => if cur = [] then [] else [String.mk cur.reverse]
  | c :: rest =>
    if c = ' ' then
      if cur = [] then splitWordsAux [] rest
      else String.mk cur.reverse :: splitWordsAux [] rest
    else splitWordsAux (c :: cur) rest

def toWords (cs : List Char) : List String :=
  splitWordsAux [] (cs.map (fun c => if isAlnum c then c else ' '))

/-- Join words with single spaces (the `re.sub(r"\s+", " ", x).strip()`
normal form). -/
def joinWords : List String → String
  | [] => ""
  | [w] => w
  | w :: rest => w ++ " " ++ joinWords rest

/-- A term category of `TERM_PATTERNS`: its two-word alternatives and its
one-word alternatives (all patterns are word-boundary anchored, so on
space-normalized word strings they match whole words / whole word pairs). -/
structure TermCat where
  two : List (String × String)
  one : List String
deriving DecidableEq, Repr

def stopwordsCat : TermCat := ⟨[], ["and", "by", "of"]⟩

def corpCat : TermCat :=
  ⟨[], ["inc", "incorporated", "llc", "ltd", "limited", "lp", "co", "corp",
        "corporation", "company", "spv", "spe"]⟩

def franchiseCat : TermCat :=
  ⟨[("license", "program"), ("operator", "program")],
   ["franchise", "franchises", "franchising", "franchisor"]⟩

def orgCat : TermCat :=
  ⟨[], ["system", "systems", "holding", "holdings", "enterprise", "enterprises"]⟩

def geoCat : TermCat := ⟨[("north", "america")], ["us", "usa", "intl", "international"]⟩

/-- Repeatedly strip trailing terms of one category (the per-category
`while` loop around `re.sub(pattern, "", x)` with a `$`-anchored pattern);
operates on the reversed word list. A two-word alternative matching the last
two words takes precedence (the regex match is leftmost). -/
def dropTrailingRev (cat : TermCat) : List String → List String
  | [] => []
  | [b] => if b ∈ cat.one then [] else [b]
  | b :: a :: rest2 =>
    if (a, b) ∈ cat.two then dropTrailingRev cat rest2
    else if b ∈ cat.one then dropTrailingRev cat (a :: rest2)
    else b :: a :: rest2

def removeTrailingAll (cat : TermCat) (ws : List String) : List String :=
  (dropTrailingRev cat ws.reverse).reverse

/-- A single `re.sub(pattern, "", normalized)` with the `$`-anchored pattern
(used once per category during restoration): removes at most one trailing
term. -/
def removeTrailingOnce (cat : TermCat) (ws : List String) : List String :=
  match ws.reverse with
  | [] => []
  | b :: rest =>
    match rest with
    | a :: rest2 =>
      if (a, b) ∈ cat.two then rest2.reverse
      else if b ∈ cat.one then rest.reverse
      else ws
    | [] => if b ∈ cat.one then [] else ws

/-- `re.findall(extract_pattern, normalized)`: all whole-word occurrences of
a category's terms, left to right; a two-word alternative starting at a word
takes precedence over advancing. -/
def findTermsIn (cat : TermCat) : List String → List String
  | [] => []
  | [w] => if w ∈ cat.one then [w] else []
  | a :: b :: rest =>
    if (a, b) ∈ cat.two then (a ++ " " ++ b) :: findTermsIn cat rest
    else if a ∈ cat.one then a :: findTermsIn cat (b :: rest)
    else findTermsIn cat (b :: rest)

/-- The inner `for term in matched` loop of `_restore_until_min_chars`:
append terms (space separated, no leading space on an empty result) while
the current result is still shorter than `min_chars`. -/
def appendTerms (minChars : Nat) : String → List String → String
  | cur, [] => cur
  | cur, t :: ts =>
    if minChars ≤ cur.length then cur
    else appendTerms minChars (if cur.length = 0 then t else cur ++ " " ++ t) ts

/-- `_restore_until_min_chars`: walk categories in `RESTORE_ORDER`
(franchise → org → geo → corp), restoring whole-word terms found in the
pre-removal `normalized` words until `min_chars` is reached; after each
category the `$`-anchored pattern is subtracted once from `normalized`. -/
def restoreUntilMinChars (normWs : List String) (current : String) (minChars : Nat) : String :=
  (([franchiseCat, orgCat, geoCat, corpCat].foldl
    (fun st cat =>
      if minChars ≤ st.2.length then st
      else (removeTrailingOnce cat st.1, appendTerms minChars st.2 (findTermsIn cat st.1)))
    (normWs, current))).2

/-- `_sanitize_single` on an already-`str()`ed value (steps 2-9 of the
sanitization pipeline). -/
def sanitizeStr (s : String) (minChars : Nat) : String :=
  let cs0 := s.toList.map lowerChar
  let cs1 := cs0.filter (fun c => ¬ isSpecialSymbol c)
  let cs2 := cs1.map translitChar
  let cs3 := cs2.flatMap (fun c => if c = '@' then ['a', 't'] else [c])
  let cs4 := cs3.filter (fun c => ¬ isJoiner c)
  let normWs := toWords cs4
  let normalizedLen := (joinWords normWs).length
  let ws1 := normWs.filter (fun w => w ∉ stopwordsCat.one)
  let ws2 := removeTrailingAll corpCat ws1
  let ws3 := removeTrailingAll franchiseCat ws2
  let ws4 := removeTrailingAll orgCat ws3
  let ws5 := removeTrailingAll geoCat ws4
  let x0 := joinWords ws5
  let x1 :=
    if 0 < minChars ∧ x0.length < minChars ∧ minChars ≤ normalizedLen then
      restoreUntilMinChars normWs x0 minChars
    else x0
  if x1.toList.take 4 = "the ".toList ∧ minChars < x1.length - 4 then
    String.mk (x1.toList.drop 4)
  else x1

/-- `_sanitize_single`: total on scalars; `None`/`NaN` yield `""`, any other
scalar is `str()`-converted and sanitized. -/
def sanitizeSingle (x : PyVal) (minChars : Nat) : String :=
  if x.isNA then "" else sanitizeStr x.pyStr minChars


/-! ## Harmonizer (`harmonize_name`) -/

/-- `dict(zip(keys, values))` lookup: the **last** pair with a given key
wins, as in a Python dict built from a pair sequence.  (`strict=True` on the
`zip` only checks that the two columns have equal length, which is always
true for columns of one DataFrame; it does not reject duplicate keys.) -/
def pyDictGet (m : List (String × String)) (k : String) : Option String :=
  (m.reverse.find? (fun p => p.1 = k)).map (fun p => p.2)

/-- Scalar path of `harmonize_name`:
`lookup.get(x, x) if x and not pd.isna(x) else x`. -/
def harmonizeScalar (m : List (String × String)) (x : PyVal) : PyVal :=
  if x.truthy ∧ ¬ x.isNA then
    match x with
    | .str s => .str ((pyDictGet m s).getD s)
    | v => v
  else x

/-- Series path of `harmonize_name` on one (string) element:
`x.map(lookup).fillna(x)` — the `.where(x.notna(), x)` guard is the identity
on string-valued sanitized names.  Note this path consults the mapping even
for the empty string. -/
def harmonizeSeriesElem (m : List (String × String)) (s : String) : String :=
  (pyDictGet m s).getD s

/-! ## Data model of `match_to_fruns` -/

/-- A row of the FRUNS master table (columns used by matching). -/
structure FrunsEntry where
  fruns : String
  brand_name_sanitized : Option String
  franchisor_sanitized : Option String
deriving DecidableEq, Repr

/-- A row of `_prepare_input`'s output. -/
structure PreparedRow where
  row_id : Nat
  name : PyVal
  name_sanitized : String
  name_harmonized : String
deriving DecidableEq, Repr

/-- One matched row as produced by the exact/fuzzy stages. -/
structure MatchRec where
  row_id : Nat
  fruns : Option String
  match_type : String
  matched_brand : Option String
  distance : Option ℚ
deriving DecidableEq, Repr

/-- One output row of `match_to_fruns` (`keep_details` columns are `none`
when the flag is off, mirroring dropped columns). -/
structure OutRow where
  name : PyVal
  fruns : Option String
  match_type : Option String
  name_sanitized : Option String
  name_harmonized : Option String
  matched_brand : Option String
  distance : Option ℚ
deriving DecidableEq, Repr

inductive Method where
  | exact : Method
  | fuzzy : Method
  | both : Method
deriving DecidableEq, Repr

/-- `_prepare_input`: assign `_row_id = range(len)`, sanitize
(default `min_chars = 4`) and harmonize each name. -/
def prepareInput (data : List PyVal) (hmap : List (String × String)) : List PreparedRow :=
  data.enum.map (fun p =>
    { row_id := p.1, name := p.2,
      name_sanitized := sanitizeSingle p.2 4,
      name_harmonized := harmonizeSeriesElem hmap (sanitizeSingle p.2 4) })

/-- `fruns_data[["fruns","brand_name_sanitized"]].dropna(...)` filtered to
non-empty brands, as (brand, fruns) pairs. -/
def brandTbl (fr : List FrunsEntry) : List (String × String) :=
  (fr.filterMap (fun e => e.brand_name_sanitized.map (fun b => (b, e.fruns)))).filter
    (fun p => p.1 ≠ "")

/-- `fruns_data[["fruns","franchisor_sanitized"]].dropna(...)` filtered to
non-empty franchisors, as (franchisor, fruns) pairs. -/
def franTbl (fr : List FrunsEntry) : List (String × String) :=
  (fr.filterMap (fun e => e.franchisor_sanitized.map (fun f => (f, e.fruns)))).filter
    (fun p => p.1 ≠ "")

/-- Rows that take part in exact matching (`na_matches = "never"` filter on
empty/NA harmonized names). -/
def validRows (rows : List PreparedRow) : List PreparedRow :=
  rows.filter (fun r => r.name_harmonized ≠ "")

/-- Step 3a: the inner merge of valid rows with `fruns_brand` on
harmonized name = sanitized brand name; provenance `exact`. -/
def exactBrandMatches (rows : List PreparedRow) (fr : List FrunsEntry) : List MatchRec :=
  (validRows rows).flatMap (fun r =>
    ((brandTbl fr).filter (fun p => p.1 = r.name_harmonized)).map (fun p =>
      { row_id := r.row_id, fruns := some p.2, match_type := "exact",
        matched_brand := none, distance := none }))

/-- Valid rows not matched by brand (the input of step 3b). -/
def exactUnmatched (rows : List PreparedRow) (fr : List FrunsEntry) : List PreparedRow :=
  (validRows rows).filter
    (fun r => r.row_id ∉ (exactBrandMatches rows fr).map (fun m => m.row_id))

/-- Step 3b's many-to-many merge with `fruns_franchisor`. -/
def franJoined (rows : List PreparedRow) (fr : List FrunsEntry) :
    List (PreparedRow × String) :=
  (exactUnmatched rows fr).flatMap (fun r =>
    ((franTbl fr).filter (fun p => p.1 = r.name_harmonized)).map (fun p => (r, p.2)))

/-- `_n_matches`: matches per `_row_id` in the franchisor join. -/
def nMatchesAt (rows : List PreparedRow) (fr : List FrunsEntry) (rid : Nat) : Nat :=
  ((franJoined rows fr).filter (fun q => q.1.row_id = rid)).length

/-- Rows with exactly one franchisor match; provenance `franchisor`. -/
def exactFranMatches (rows : List PreparedRow) (fr : List FrunsEntry) : List MatchRec :=
  ((franJoined rows fr).filter (fun q => nMatchesAt rows fr q.1.row_id = 1)).map (fun q =>
    { row_id := q.1.row_id, fruns := some q.2, match_type := "franchisor",
      matched_brand := none, distance := none })

/-- Rows with more than one franchisor match: null identifier, provenance
`franchisor_multiple`. -/
def franMultMatches (rows : List PreparedRow) (fr : List FrunsEntry) : List MatchRec :=
  ((exactUnmatched rows fr).filter (fun r =>
      r.row_id ∈ ((franJoined rows fr).filter
        (fun q => 1 < nMatchesAt rows fr q.1.row_id)).map (fun q => q.1.row_id))).map
    (fun r =>
      { row_id := r.row_id, fruns := none, match_type := "franchisor_multiple",
        matched_brand := none, distance := none })

/-- `_find_exact_matches`: brand-name merge (validated `m:1`; a duplicate
non-empty brand key is a pandas `MergeError`), then franchisor merge on the
brand-unmatched rows with explicit multiplicity handling. -/
def findExactMatches (rows : List PreparedRow) (fr : List FrunsEntry) :
    Except String (List MatchRec) :=
  if ((brandTbl fr).map Prod.fst).Nodup then
    if (franJoined rows fr).isEmpty then Except.ok (exactBrandMatches rows fr)
    else Except.ok (exactBrandMatches rows fr ++ exactFranMatches rows fr ++
      franMultMatches rows fr)
  else Except.error "MergeError"

/-! ## Fuzzy matcher (`_match_fuzzy`) -/

/-- Floor of a rational (den is positive, so `Int.fdiv` of num by den is the
mathematical floor). -/
def ratFloorZ (q : ℚ) : ℤ := Int.fdiv q.num q.den

/-- Python `round(_)` to an integer: round half to even. -/
def roundHalfEven (q : ℚ) : ℤ :=
  if q - (ratFloorZ q : ℚ) < 1/2 then ratFloorZ q
  else if 1/2 < q - (ratFloorZ q : ℚ) then ratFloorZ q + 1
  else if ratFloorZ q % 2 = 0 then ratFloorZ q
  else ratFloorZ q + 1

/-- Python `round(d, 4)`. -/
def round4 (q : ℚ) : ℚ := (roundHalfEven (q * 10000) : ℚ) / 10000

/-- Zero-pad a decimal digit string on the left to length `k`. -/
def padZeros (k : Nat) (s : String) : String :=
  String.mk (List.replicate (k - s.length) '0') ++ s

/-- `f"fuzzy_{d:.4f}"`. -/
def fuzzyTag (d : ℚ) : String :=
  let n := roundHalfEven (d * 10000)
  "fuzzy_" ++ toString (Int.fdiv n 10000) ++ "." ++ padZeros 4 (toString (Int.fmod n 10000).natAbs)

/-- The scan of `rapidfuzz.process.extractOne`: keep candidates whose
similarity is at least `score_cutoff`; a later candidate replaces the
current best only when strictly better (ties keep the first). -/
def extractOneGo (sim : String → String → ℚ) (name : String) (cutoff : ℚ) :
    Option (String × ℚ) → List String → Option (String × ℚ)
  | best, [] => best
  | best, c :: rest =>
    let sc := sim name c
    let best' :=
      if cutoff ≤ sc then
        match best with
        | Option.none => some (c, sc)
        | some bs => if bs.2 < sc then some (c, sc) else some bs
      else best
    extractOneGo sim name cutoff best' rest

def extractOne (sim : String → String → ℚ) (name : String) (cutoff : ℚ)
    (brands : List String) : Option (String × ℚ) :=
  extractOneGo sim name cutoff Option.none brands

/-- Per-name candidate acceptance of `_match_fuzzy`: `extractOne` with
`score_cutoff = 1 - max_distance`, then keep the best candidate only if its
distance `1 - score`, rounded to 4 decimals, is strictly below
`max_distance`. -/
def fuzzyBest (sim : String → String → ℚ) (maxD : ℚ) (name : String)
    (brands : List String) : Option (String × ℚ) :=
  match extractOne sim name (1 - maxD) brands with
  | Option.none => Option.none
  | some bs =>
    let d := 1 - bs.2
    if round4 d < maxD then some (bs.1, d) else Option.none

/-- First-occurrence deduplication (pandas `unique` / `drop_duplicates`). -/
def dedupFirstAux {α : Type} [DecidableEq α] (seen : List α) : List α → List α
  | [] => []
  | a :: rest =>
    if a ∈ seen then dedupFirstAux seen rest else a :: dedupFirstAux (a :: seen) rest

def dedupFirst {α : Type} [DecidableEq α] (l : List α) : List α := dedupFirstAux [] l

/-- `fruns_data[["brand_name_sanitized","fruns"]].drop_duplicates()`:
NA brands are kept and compare equal to each other, as in pandas. -/
def pairTbl (fr : List FrunsEntry) : List (Option String × String) :=
  dedupFirst (fr.map (fun e => (e.brand_name_sanitized, e.fruns)))

/-- One accepted fuzzy match for a unique input name. -/
structure FuzzyRec where
  name : String
  brand : String
  dist : ℚ
deriving DecidableEq, Repr

/-- `data["_name_harmonized"].dropna().unique()` then empty-string filter. -/
def uniqueInputOf (rows : List PreparedRow) : List String :=
  (dedupFirst (rows.map (fun r => r.name_harmonized))).filter (fun n => n ≠ "")

/-- `fruns_data["brand_name_sanitized"].dropna().unique().tolist()` then
empty-string filter. -/
def uniqueBrandsOf (fr : List FrunsEntry) : List String :=
  (dedupFirst (fr.filterMap (fun e => e.brand_name_sanitized))).filter (fun b => b ≠ "")

/-- The `best_matches` list: one accepted fuzzy candidate per unique input
name. -/
def bestMatches (sim : String → String → ℚ) (maxD : ℚ) (rows : List PreparedRow)
    (fr : List FrunsEntry) : List FuzzyRec :=
  (uniqueInputOf rows).filterMap (fun name =>
    (fuzzyBest sim maxD name (uniqueBrandsOf fr)).map (fun bd =>
      { name := name, brand := bd.1, dist := bd.2 : FuzzyRec }))

/-- `bestMatches` left-joined (on the matched brand) to the deduplicated
(brand, fruns) pairs. -/
def bestWithFruns (sim : String → String → ℚ) (maxD : ℚ) (rows : List PreparedRow)
    (fr : List FrunsEntry) : List (FuzzyRec × Option String) :=
  (bestMatches sim maxD rows fr).map (fun t =>
    (t, ((pairTbl fr).find? (fun p => p.1 = some t.brand)).map (fun p => p.2)))

/-- `_match_fuzzy`.  The `validate="m:1"` merge of accepted matches to the
deduplicated (brand, fruns) pairs only runs when at least one candidate was
accepted; its left join finds the fruns of the matched brand, and the result
is fanned back out to every row sharing the harmonized name. -/
def matchFuzzy (sim : String → String → ℚ) (rows : List PreparedRow)
    (fr : List FrunsEntry) (maxD : ℚ) : Except String (List MatchRec) :=
  if (uniqueInputOf rows).isEmpty ∨ (uniqueBrandsOf fr).isEmpty then Except.ok []
  else if (bestMatches sim maxD rows fr).isEmpty then Except.ok []
  else if ((pairTbl fr).map Prod.fst).Nodup then
    Except.ok (rows.flatMap (fun r =>
      ((bestWithFruns sim maxD rows fr).filter
        (fun t => t.1.name = r.name_harmonized)).map (fun t =>
        { row_id := r.row_id, fruns := t.2, match_type := fuzzyTag t.1.dist,
          matched_brand := some t.1.brand, distance := some t.1.dist })))
  else Except.error "MergeError"

/-! ## Orchestrator (`match_to_fruns`) and `_finalize_matches` -/

/-- Build one output row from a prepared row and its (at most one) match. -/
def mkOut (keep : Bool) (r : PreparedRow) (mo : Option MatchRec) : OutRow :=
  { name := r.name,
    fruns := mo.bind (fun m => m.fruns),
    match_type := mo.map (fun m => m.match_type),
    name_sanitized := if keep then some r.name_sanitized else none,
    name_harmonized := if keep then some r.name_harmonized else none,
    matched_brand := if keep then mo.bind (fun m => m.matched_brand) else none,
    distance := if keep then mo.bind (fun m => m.distance) else none }

/-- The output rows the left join of `_finalize_matches` produces for one
prepared row: one null-filled row if the row matched nothing, else one row
per match. -/
def rowOuts (ms : List MatchRec) (keep : Bool) (r : PreparedRow) : List OutRow :=
  match ms.filter (fun m => m.row_id = r.row_id) with
  | [] => [mkOut keep r Option.none]
  | l => l.map (fun m => mkOut keep r (some m))

/-- `_finalize_matches`: left-join the matches back onto the prepared rows
by `_row_id` (a row with several matches would be duplicated, as in a pandas
left merge; a row with none gets null identifier and provenance). -/
def finalizeMatches (prepared : List PreparedRow) (ms : List MatchRec)
    (keep : Bool) : List OutRow :=
  prepared.flatMap (rowOuts ms keep)

/-- `match_to_fruns` (the verbose reporting is presentation-only and not
modelled). -/
def matchToFruns (sim : String → String → ℚ) (data : List PyVal) (method : Method)
    (fr : List FrunsEntry) (hmap : List (String × String)) (maxD : ℚ)
    (keep : Bool) : Except String (List OutRow) :=
  let prepared := prepareInput data hmap
  match method with
  | .exact =>
    match findExactMatches prepared fr with
    | .error e => .error e
    | .ok ms => .ok (finalizeMatches prepared ms keep)
  | .fuzzy =>
    match matchFuzzy sim prepared fr maxD with
    | .error e => .error e
    | .ok ms => .ok (finalizeMatches prepared ms keep)
  | .both =>
    match findExactMatches prepared fr with
    | .error e => .error e
    | .ok ex =>
      let matchedIds := ex.map (fun m => m.row_id)
      let unmatched := prepared.filter (fun r => r.row_id ∉ matchedIds)
      match (if unmatched.isEmpty then Except.ok [] else matchFuzzy sim unmatched fr maxD) with
      | .error e => .error e
      | .ok fz => .ok (finalizeMatches prepared (ex ++ fz) keep)

/-- The matches the orchestrator feeds to `_finalize_matches`
(used to state merge-policy properties). -/
def collectMatches (sim : String → String → ℚ) (data : List PyVal) (method : Method)
    (fr : List FrunsEntry) (hmap : List (String × String)) (maxD : ℚ) :
    Except String (List MatchRec) :=
  let prepared := prepareInput data hmap
  match method with
  | .exact => findExactMatches prepared fr
  | .fuzzy => matchFuzzy sim prepared fr maxD
  | .both =>
    match findExactMatches prepared fr with
    | .error e => .error e
    | .ok ex =>
      let matchedIds := ex.map (fun m => m.row_id)
      let unmatched := prepared.filter (fun r => r.row_id ∉ matchedIds)
      match (if unmatched.isEmpty then Except.ok [] else matchFuzzy sim unmatched fr maxD) with
      | .error e => .error e
      | .ok fz => .ok (ex ++ fz)

/-! ## Concrete fixtures used by witnesses and counterexamples -/

/-- A degenerate scorer rating every pair a perfect match (distance 0). -/
def simAll1 : String → String → ℚ := fun _ _ => 1

/-- A degenerate scorer rating every pair maximally distant. -/
def simAll0 : String → String → ℚ := fun _ _ => 0

/-- Two reference entries sharing the sanitized franchisor `acme`. -/
def frAcmePair : List FrunsEntry :=
  [⟨"1", some "zzzz", some "acme"⟩, ⟨"2", some "yyyy", some "acme"⟩]

/-- A single-brand reference table. -/
def frSubway : List FrunsEntry := [⟨"1", some "subway", none⟩]

/-- A reference table with a duplicated non-empty sanitized brand name. -/
def frDupBrand : List FrunsEntry := [⟨"1", some "aaaa", none⟩, ⟨"2", some "aaaa", none⟩]

/-- A one-entry reference table whose brand is a harmonization target. -/
def frOneBrand : List FrunsEntry := [⟨"1", some "cccc", none⟩]

/-- A harmonization table with a duplicated key. -/
def hmapDupKeys : List (String × String) := [("aaaa", "bbbb"), ("aaaa", "cccc")]

/-- The prepared row used to exercise the franchisor-ambiguity path. -/
def rowAcme : PreparedRow := ⟨0, PyVal.str "Acme", "acme", "acme"⟩

/-! ## Merge-policy infrastructure -/

/-- Number of match records carrying a given `_row_id`. -/
def countId (ms : List MatchRec) (k : Nat) : Nat :=
  (ms.filter (fun m => m.row_id = k)).length

/-- The single output row `_finalize_matches` produces for a prepared row
whose `_row_id` occurs at most once among the matches. -/
def outFor (ms : List MatchRec) (keep : Bool) (r : PreparedRow) : OutRow :=
  match ms.filter (fun m => m.row_id = r.row_id) with
  | [] => mkOut keep r Option.none
  | m :: _ => mkOut keep r (some m)

lemma countId_append (a b : List MatchRec) (k : Nat) :
    countId (a ++ b) k = countId a k + countId b k := by
  simp [countId, List.filter_append]

/-- A filter by key equality keeps at most one element when the mapped keys
are distinct. -/
lemma length_filter_key_le_one {α κ : Type} [DecidableEq κ] (key : α → κ)
    (l : List α) (h : (l.map key).Nodup) (x : κ) :
    (l.filter (fun a => key a = x)).length ≤ 1 := by
  induction l with
  | nil => simp
  | cons a t ih =>
    simp only [List.map_cons, List.nodup_cons, List.mem_map] at h
    by_cases hx : key a = x
    · have ht : t.filter (fun b => key b = x) = [] := by
        refine List.filter_eq_nil_iff.mpr (fun b hb => ?_)
        simp only [decide_eq_true_eq]
        intro hbx
        exact h.1 ⟨b, hb, by rw [hbx, hx]⟩
      simp [List.filter_cons, hx, ht]
    · simpa [List.filter_cons, hx] using ih h.2

lemma mem_flatMap_row_id (rows : List PreparedRow) (f : PreparedRow → List MatchRec)
    (hid : ∀ r m, m ∈ f r → m.row_id = r.row_id) (m : MatchRec)
    (hm : m ∈ rows.flatMap f) : m.row_id ∈ rows.map (fun r => r.row_id) := by
  rcases List.mem_flatMap.mp hm with ⟨r, hr, hmr⟩
  exact List.mem_map.mpr ⟨r, hr, (hid r m hmr).symm⟩

/-- One match record per row id in a per-row flatMap with at most one record
per row. -/
lemma countId_flatMap_le_one (rows : List PreparedRow) (f : PreparedRow → List MatchRec)
    (hids : (rows.map (fun r => r.row_id)).Nodup)
    (hlen : ∀ r, (f r).length ≤ 1)
    (hid : ∀ r m, m ∈ f r → m.row_id = r.row_id) (k : Nat) :
    countId (rows.flatMap f) k ≤ 1 := by
  induction rows with
  | nil => simp [countId]
  | cons a t ih =>
    simp only [List.map_cons, List.nodup_cons] at hids
    rw [List.flatMap_cons, countId_append]
    by_cases hk : a.row_id = k
    · have ht : countId (t.flatMap f) k = 0 := by
        simp only [countId, List.length_eq_zero]
        refine List.filter_eq_nil_iff.mpr (fun m hm => ?_)
        simp only [decide_eq_true_eq]
        intro hmk
        exact absurd (by rw [hk, ← hmk]; exact mem_flatMap_row_id t f hid m hm) hids.1
      have hh : countId (f a) k ≤ 1 :=
        le_trans (List.length_filter_le _ _) (hlen a)
      omega
    · have hh : countId (f a) k = 0 := by
        simp only [countId, List.length_eq_zero]
        refine List.filter_eq_nil_iff.mpr (fun m hm => ?_)
        simp only [decide_eq_true_eq]
        intro hmk
        exact hk ((hid a m hm) ▸ hmk)
      have := ih hids.2
      omega

lemma dedupFirstAux_nodup {α : Type} [DecidableEq α] (l : List α) :
    ∀ seen : List α, (dedupFirstAux seen l).Nodup ∧
      ∀ a ∈ dedupFirstAux seen l, a ∉ seen := by
  induction l with
  | nil => intro seen; simp [dedupFirstAux]
  | cons a t ih =>
    intro seen
    by_cases ha : a ∈ seen
    · simpa [dedupFirstAux, ha] using ⟨(ih seen).1, fun b hb => (ih seen).2 b hb⟩
    · have h2 := ih (a :: seen)
      refine ⟨?_, ?_⟩
      · simp only [dedupFirstAux, if_neg ha, List.nodup_cons]
        exact ⟨fun hmem => (h2.2 a hmem) (List.mem_cons_self a seen), h2.1⟩
      · intro b hb
        simp only [dedupFirstAux, if_neg ha, List.mem_cons] at hb
        rcases hb with rfl | hb
        · exact ha
        · exact fun hbs => (h2.2 b hb) (List.mem_cons_of_mem a hbs)

lemma dedupFirst_nodup {α : Type} [DecidableEq α] (l : List α) : (dedupFirst l).Nodup :=
  (dedupFirstAux_nodup l []).1

lemma prepareInput_map_name (data : List PyVal) (hmap : List (String × String)) :
    (prepareInput data hmap).map (fun r => r.name) = data := by
  simp [prepareInput, List.map_map, Function.comp_def]

lemma prepareInput_map_row_id (data : List PyVal) (hmap : List (String × String)) :
    (prepareInput data hmap).map (fun r => r.row_id) = List.range data.length := by
  simp [prepareInput, List.map_map, Function.comp_def]

lemma prepareInput_row_id_nodup (data : List PyVal) (hmap : List (String × String)) :
    ((prepareInput data hmap).map (fun r => r.row_id)).Nodup := by
  rw [prepareInput_map_row_id]; exact List.nodup_range _

lemma prepareInput_length (data : List PyVal) (hmap : List (String × String)) :
    (prepareInput data hmap).length = data.length := by
  simp [prepareInput]

lemma validRows_ids_nodup (rows : List PreparedRow)
    (h : (rows.map (fun r => r.row_id)).Nodup) :
    ((validRows rows).map (fun r => r.row_id)).Nodup :=
  h.sublist ((List.filter_sublist rows).map _)

lemma exactUnmatched_ids_nodup (rows : List PreparedRow) (fr : List FrunsEntry)
    (h : (rows.map (fun r => r.row_id)).Nodup) :
    ((exactUnmatched rows fr).map (fun r => r.row_id)).Nodup :=
  (validRows_ids_nodup rows h).sublist ((List.filter_sublist _).map _)

lemma countId_exactBrand_le_one (rows : List PreparedRow) (fr : List FrunsEntry)
    (hids : (rows.map (fun r => r.row_id)).Nodup)
    (hbrand : ((brandTbl fr).map Prod.fst).Nodup) (k : Nat) :
    countId (exactBrandMatches rows fr) k ≤ 1 := by
  refine countId_flatMap_le_one _ _ (validRows_ids_nodup rows hids) (fun r => ?_)
    (fun r m hm => ?_) k
  · rw [List.length_map]
    exact length_filter_key_le_one Prod.fst _ hbrand _
  · rcases List.mem_map.mp hm with ⟨p, _, rfl⟩
    rfl

lemma mem_exactBrand_id (rows : List PreparedRow) (fr : List FrunsEntry) (m : MatchRec)
    (hm : m ∈ exactBrandMatches rows fr) :
    m.row_id ∈ (exactBrandMatches rows fr).map (fun x => x.row_id) :=
  List.mem_map.mpr ⟨m, hm, rfl⟩

lemma mem_exactBrand_shape (rows : List PreparedRow) (fr : List FrunsEntry) (m : MatchRec)
    (hm : m ∈ exactBrandMatches rows fr) :
    m.match_type = "exact" ∧ m.row_id ∈ (validRows rows).map (fun r => r.row_id) := by
  rcases List.mem_flatMap.mp hm with ⟨r, hr, hmr⟩
  rcases List.mem_map.mp hmr with ⟨p, _, rfl⟩
  exact ⟨rfl, List.mem_map.mpr ⟨r, hr, rfl⟩⟩

lemma mem_franJoined_fst (rows : List PreparedRow) (fr : List FrunsEntry)
    (q : PreparedRow × String) (hq : q ∈ franJoined rows fr) :
    q.1 ∈ exactUnmatched rows fr := by
  rcases List.mem_flatMap.mp hq with ⟨r, hr, hqr⟩
  rcases List.mem_map.mp hqr with ⟨p, _, rfl⟩
  exact hr

lemma countId_eq_countP (ms : List MatchRec) (k : Nat) :
    countId ms k = ms.countP (fun m => m.row_id = k) := by
  simp [countId, List.countP_eq_length_filter]

lemma countId_exactFran_le_one (rows : List PreparedRow) (fr : List FrunsEntry) (k : Nat) :
    countId (exactFranMatches rows fr) k ≤ 1 := by
  rw [countId_eq_countP]
  unfold exactFranMatches
  rw [List.countP_map, show ((fun m : MatchRec => decide (m.row_id = k)) ∘ fun q =>
      ({ row_id := q.1.row_id, fruns := some q.2, match_type := "franchisor",
         matched_brand := none, distance := none } : MatchRec)) =
      (fun q : PreparedRow × String => decide (q.1.row_id = k)) from rfl,
    List.countP_filter]
  by_cases hn : nMatchesAt rows fr k = 1
  · have hcong : (franJoined rows fr).countP (fun q =>
        decide (q.1.row_id = k) && decide (nMatchesAt rows fr q.1.row_id = 1)) =
        (franJoined rows fr).countP (fun q => decide (q.1.row_id = k)) := by
      refine List.countP_congr (fun q _ => ?_)
      by_cases hqk : q.1.row_id = k
      · simp [hqk, hn]
      · simp [hqk]
    rw [hcong, List.countP_eq_length_filter]
    have : ((franJoined rows fr).filter (fun q => q.1.row_id = k)).length =
        nMatchesAt rows fr k := rfl
    omega
  · have hz : (franJoined rows fr).countP (fun q =>
        decide (q.1.row_id = k) && decide (nMatchesAt rows fr q.1.row_id = 1)) = 0 := by
      refine List.countP_eq_zero.mpr (fun q _ => ?_)
      by_cases hqk : q.1.row_id = k
      · simp [hqk, hn]
      · simp [hqk]
    omega

lemma countId_franMult_le_one (rows : List PreparedRow) (fr : List FrunsEntry)
    (hids : (rows.map (fun r => r.row_id)).Nodup) (k : Nat) :
    countId (franMultMatches rows fr) k ≤ 1 := by
  rw [countId_eq_countP]
  unfold franMultMatches
  rw [List.countP_map, show ((fun m : MatchRec => decide (m.row_id = k)) ∘ fun r =>
      ({ row_id := r.row_id, fruns := none, match_type := "franchisor_multiple",
         matched_brand := none, distance := none } : MatchRec)) =
      (fun r : PreparedRow => decide (r.row_id = k)) from rfl,
    List.countP_filter]
  refine le_trans (List.countP_mono_left
    (q := fun r : PreparedRow => decide (r.row_id = k)) (fun r _ h => ?_)) ?_
  · exact (Bool.and_eq_true _ _ ▸ h).1
  · rw [List.countP_eq_length_filter]
    exact length_filter_key_le_one (fun r : PreparedRow => r.row_id) _
      (exactUnmatched_ids_nodup rows fr hids) k

lemma countId_pos_mem (ms : List MatchRec) (k : Nat) (h : 0 < countId ms k) :
    ∃ m ∈ ms, m.row_id = k := by
  rcases List.exists_mem_of_length_pos h with ⟨m, hm⟩
  rcases List.mem_filter.mp hm with ⟨h1, h2⟩
  exact ⟨m, h1, by simpa using h2⟩

lemma mem_filter_singleton (ms : List MatchRec) (k : Nat) (m : MatchRec)
    (hm : m ∈ ms) (hk : m.row_id = k) (hle : countId ms k ≤ 1) :
    ms.filter (fun x => x.row_id = k) = [m] := by
  have hmem : m ∈ ms.filter (fun x => x.row_id = k) :=
    List.mem_filter.mpr ⟨hm, by simpa using hk⟩
  rcases hf : ms.filter (fun x => x.row_id = k) with _ | ⟨x, l⟩
  · rw [hf] at hmem; exact absurd hmem (List.not_mem_nil m)
  · have hlen : (x :: l).length ≤ 1 := by
      rw [← hf]; exact hle
    have hl : l = [] := by
      simp only [List.length_cons] at hlen
      exact List.length_eq_zero.mp (by omega)
    subst hl
    rw [hf] at hmem
    simp only [List.mem_singleton] at hmem
    rw [hf, hmem]

lemma validRows_subset (rows : List PreparedRow) (r : PreparedRow)
    (h : r ∈ validRows rows) : r ∈ rows := (List.mem_filter.mp h).1

lemma exactUnmatched_subset (rows : List PreparedRow) (fr : List FrunsEntry)
    (r : PreparedRow) (h : r ∈ exactUnmatched rows fr) : r ∈ validRows rows :=
  (List.mem_filter.mp h).1

lemma exactUnmatched_not_brand (rows : List PreparedRow) (fr : List FrunsEntry)
    (r : PreparedRow) (h : r ∈ exactUnmatched rows fr) :
    r.row_id ∉ (exactBrandMatches rows fr).map (fun m => m.row_id) := by
  have := (List.mem_filter.mp h).2
  simpa using this

lemma mem_exactFran_shape (rows : List PreparedRow) (fr : List FrunsEntry) (m : MatchRec)
    (hm : m ∈ exactFranMatches rows fr) :
    m.match_type = "franchisor" ∧ nMatchesAt rows fr m.row_id = 1 ∧
      ∃ r ∈ exactUnmatched rows fr, m.row_id = r.row_id := by
  rcases List.mem_map.mp hm with ⟨q, hq, rfl⟩
  rcases List.mem_filter.mp hq with ⟨hq1, hq2⟩
  refine ⟨rfl, by simpa using hq2, q.1, mem_franJoined_fst rows fr q hq1, rfl⟩

lemma mem_franMult_shape (rows : List PreparedRow) (fr : List FrunsEntry) (m : MatchRec)
    (hm : m ∈ franMultMatches rows fr) :
    m.match_type = "franchisor_multiple" ∧ m.fruns = none ∧
      1 < nMatchesAt rows fr m.row_id ∧ ∃ r ∈ exactUnmatched rows fr, m.row_id = r.row_id := by
  rcases List.mem_map.mp hm with ⟨r, hr, rfl⟩
  rcases List.mem_filter.mp hr with ⟨hr1, hr2⟩
  simp only [List.mem_map, List.mem_filter, decide_eq_true_eq] at hr2
  rcases hr2 with ⟨q, ⟨hq1, hq2⟩, hq3⟩
  refine ⟨rfl, rfl, ?_, r, hr1, rfl⟩
  simpa [hq3] using hq2

lemma exactFran_nil_of_joined_nil (rows : List PreparedRow) (fr : List FrunsEntry)
    (h : franJoined rows fr = []) : exactFranMatches rows fr = [] := by
  unfold exactFranMatches; rw [h]; rfl

lemma franMult_nil_of_joined_nil (rows : List PreparedRow) (fr : List FrunsEntry)
    (h : franJoined rows fr = []) : franMultMatches rows fr = [] := by
  unfold franMultMatches nMatchesAt
  rw [h]
  simp

/-- Characterization of a successful `_find_exact_matches`. -/
lemma findExact_ok (rows : List PreparedRow) (fr : List FrunsEntry) (ms : List MatchRec)
    (hok : findExactMatches rows fr = Except.ok ms) :
    ((brandTbl fr).map Prod.fst).Nodup ∧
      ms = exactBrandMatches rows fr ++ exactFranMatches rows fr ++ franMultMatches rows fr := by
  unfold findExactMatches at hok
  by_cases hb : ((brandTbl fr).map Prod.fst).Nodup
  · rw [if_pos hb] at hok
    by_cases hj : (franJoined rows fr).isEmpty
    · rw [if_pos hj] at hok
      have hjnil : franJoined rows fr = [] := List.isEmpty_iff.mp hj
      refine ⟨hb, ?_⟩
      rw [exactFran_nil_of_joined_nil rows fr hjnil, franMult_nil_of_joined_nil rows fr hjnil]
      simpa using (Except.ok.inj hok).symm
    · rw [if_neg hj] at hok
      exact ⟨hb, (Except.ok.inj hok).symm⟩
  · rw [if_neg hb] at hok
    exact absurd hok (by simp)

/-- A successful exact stage yields at most one match record per row id. -/
lemma countId_findExact_le_one (rows : List PreparedRow) (fr : List FrunsEntry)
    (ms : List MatchRec) (hids : (rows.map (fun r => r.row_id)).Nodup)
    (hok : findExactMatches rows fr = Except.ok ms) (k : Nat) :
    countId ms k ≤ 1 := by
  rcases findExact_ok rows fr ms hok with ⟨hb, rfl⟩
  rw [countId_append, countId_append]
  by_cases hA : 0 < countId (exactBrandMatches rows fr) k
  · rcases countId_pos_mem _ _ hA with ⟨m, hm, hmk⟩
    have hkA : k ∈ (exactBrandMatches rows fr).map (fun x => x.row_id) :=
      hmk ▸ mem_exactBrand_id rows fr m hm
    have hB : countId (exactFranMatches rows fr) k = 0 := by
      by_contra hB
      rcases countId_pos_mem _ _ (Nat.pos_of_ne_zero hB) with ⟨m2, hm2, hm2k⟩
      rcases (mem_exactFran_shape rows fr m2 hm2).2.2 with ⟨r, hr, hrid⟩
      exact exactUnmatched_not_brand rows fr r hr (hrid ▸ hm2k ▸ hkA)
    have hC : countId (franMultMatches rows fr) k = 0 := by
      by_contra hC
      rcases countId_pos_mem _ _ (Nat.pos_of_ne_zero hC) with ⟨m2, hm2, hm2k⟩
      rcases (mem_franMult_shape rows fr m2 hm2).2.2.2 with ⟨r, hr, hrid⟩
      exact exactUnmatched_not_brand rows fr r hr (hrid ▸ hm2k ▸ hkA)
    have := countId_exactBrand_le_one rows fr hids hb k
    omega
  · have hA0 : countId (exactBrandMatches rows fr) k = 0 := by omega
    by_cases hBpos : 0 < countId (exactFranMatches rows fr) k
    · rcases countId_pos_mem _ _ hBpos with ⟨m, hm, hmk⟩
      have h1 : nMatchesAt rows fr k = 1 := hmk ▸ (mem_exactFran_shape rows fr m hm).2.1
      have hC : countId (franMultMatches rows fr) k = 0 := by
        by_contra hC
        rcases countId_pos_mem _ _ (Nat.pos_of_ne_zero hC) with ⟨m2, hm2, hm2k⟩
        have h2 : 1 < nMatchesAt rows fr k := hm2k ▸ (mem_franMult_shape rows fr m2 hm2).2.2.1
        omega
      have := countId_exactFran_le_one rows fr k
      omega
    · have := countId_franMult_le_one rows fr hids k
      omega

/-- All exact-stage match records refer to input rows. -/
lemma findExact_ids_subset (rows : List PreparedRow) (fr : List FrunsEntry)
    (ms : List MatchRec) (hok : findExactMatches rows fr = Except.ok ms)
    (m : MatchRec) (hm : m ∈ ms) : m.row_id ∈ rows.map (fun r => r.row_id) := by
  rcases findExact_ok rows fr ms hok with ⟨_, rfl⟩
  rcases List.mem_append.mp hm with hm' | hmC
  · rcases List.mem_append.mp hm' with hmA | hmB
    · rcases (mem_exactBrand_shape rows fr m hmA).2 with hv
      rcases List.mem_map.mp hv with ⟨r, hr, hrk⟩
      exact List.mem_map.mpr ⟨r, validRows_subset rows r hr, hrk⟩
    · rcases (mem_exactFran_shape rows fr m hmB).2.2 with ⟨r, hr, hrk⟩
      exact List.mem_map.mpr
        ⟨r, validRows_subset rows r (exactUnmatched_subset rows fr r hr), hrk.symm⟩
  · rcases (mem_franMult_shape rows fr m hmC).2.2.2 with ⟨r, hr, hrk⟩
    exact List.mem_map.mpr
      ⟨r, validRows_subset rows r (exactUnmatched_subset rows fr r hr), hrk.symm⟩

lemma map_filterMap_key_sublist {κ α : Type} (l : List κ) (g : κ → Option α)
    (key : α → κ) (h : ∀ x y, g x = some y → key y = x) :
    ((l.filterMap g).map key).Sublist l := by
  induction l with
  | nil => simp
  | cons a t ih =>
    rw [List.filterMap_cons]
    rcases hg : g a with _ | y
    · exact (ih).cons a
    · rw [List.map_cons, h a y hg]
      exact (ih).cons₂ a

lemma uniqueInputOf_nodup (rows : List PreparedRow) : (uniqueInputOf rows).Nodup :=
  (dedupFirst_nodup _).filter _

lemma bestMatches_names_nodup (sim : String → String → ℚ) (maxD : ℚ)
    (rows : List PreparedRow) (fr : List FrunsEntry) :
    ((bestMatches sim maxD rows fr).map (fun t => t.name)).Nodup := by
  refine (uniqueInputOf_nodup rows).sublist ?_
  unfold bestMatches
  refine map_filterMap_key_sublist (uniqueInputOf rows)
    (fun name => (fuzzyBest sim maxD name (uniqueBrandsOf fr)).map (fun bd =>
      { name := name, brand := bd.1, dist := bd.2 : FuzzyRec }))
    (fun t : FuzzyRec => t.name) (fun x y hg => ?_)
  rcases Option.map_eq_some'.mp hg with ⟨bd, _, rfl⟩
  rfl

lemma bestWithFruns_names_nodup (sim : String → String → ℚ) (maxD : ℚ)
    (rows : List PreparedRow) (fr : List FrunsEntry) :
    ((bestWithFruns sim maxD rows fr).map (fun t => t.1.name)).Nodup := by
  unfold bestWithFruns
  rw [List.map_map]
  exact bestMatches_names_nodup sim maxD rows fr

/-- A successful fuzzy stage yields at most one match record per row id, and
all record ids come from the input rows. -/
lemma matchFuzzy_ok (sim : String → String → ℚ) (rows : List PreparedRow)
    (fr : List FrunsEntry) (maxD : ℚ) (ms : List MatchRec)
    (hids : (rows.map (fun r => r.row_id)).Nodup)
    (hok : matchFuzzy sim rows fr maxD = Except.ok ms) :
    (∀ k, countId ms k ≤ 1) ∧
      ∀ m ∈ ms, m.row_id ∈ rows.map (fun r => r.row_id) := by
  unfold matchFuzzy at hok
  by_cases h1 : (uniqueInputOf rows).isEmpty ∨ (uniqueBrandsOf fr).isEmpty
  · rw [if_pos h1] at hok
    have : ms = [] := (Except.ok.inj hok).symm
    subst this
    exact ⟨fun k => by simp [countId], fun m hm => absurd hm (List.not_mem_nil m)⟩
  · rw [if_neg h1] at hok
    by_cases h2 : (bestMatches sim maxD rows fr).isEmpty
    · rw [if_pos h2] at hok
      have : ms = [] := (Except.ok.inj hok).symm
      subst this
      exact ⟨fun k => by simp [countId], fun m hm => absurd hm (List.not_mem_nil m)⟩
    · rw [if_neg h2] at hok
      by_cases h3 : ((pairTbl fr).map Prod.fst).Nodup
      · rw [if_pos h3] at hok
        have hms := (Except.ok.inj hok).symm
        subst hms
        constructor
        · intro k
          refine countId_flatMap_le_one _ _ hids (fun r => ?_) (fun r m hm => ?_) k
          · rw [List.length_map]
            exact length_filter_key_le_one (fun t : FuzzyRec × Option String => t.1.name) _
              (bestWithFruns_names_nodup sim maxD rows fr) _
          · rcases List.mem_map.mp hm with ⟨t, _, rfl⟩
            rfl
        · intro m hm
          refine mem_flatMap_row_id rows _ (fun r m hmr => ?_) m hm
          rcases List.mem_map.mp hmr with ⟨t, _, rfl⟩
          rfl
      · rw [if_neg h3] at hok
        exact absurd hok (by simp)

/-- When every row id occurs at most once among the matches, the left join
of `_finalize_matches` produces exactly one output row per prepared row. -/
lemma finalize_eq_map (prepared : List PreparedRow) (ms : List MatchRec) (keep : Bool)
    (h : ∀ k, countId ms k ≤ 1) :
    finalizeMatches prepared ms keep = prepared.map (outFor ms keep) := by
  have hrow : ∀ r : PreparedRow, rowOuts ms keep r = [outFor ms keep r] := by
    intro r
    rcases hf : ms.filter (fun m => m.row_id = r.row_id) with _ | ⟨m, l⟩
    · unfold rowOuts outFor
      rw [hf]
    · have hlen : (m :: l).length ≤ 1 := by
        rw [← hf]; exact h r.row_id
      have hl : l = [] := by
        simp only [List.length_cons] at hlen
        exact List.length_eq_zero.mp (by omega)
      subst hl
      unfold rowOuts outFor
      rw [hf]
      rfl
  unfold finalizeMatches
  induction prepared with
  | nil => rfl
  | cons r t ih =>
    rw [List.flatMap_cons, List.map_cons, ih, hrow r, List.singleton_append]

/-- `match_to_fruns` is `_finalize_matches` applied to the collected
stage matches. -/
lemma matchToFruns_eq_collect (sim : String → String → ℚ) (data : List PyVal)
    (method : Method) (fr : List FrunsEntry) (hmap : List (String × String))
    (maxD : ℚ) (keep : Bool) :
    matchToFruns sim data method fr hmap maxD keep =
      (collectMatches sim data method fr hmap maxD).map
        (fun ms => finalizeMatches (prepareInput data hmap) ms keep) := by
  have map_bridge : ∀ (x : Except String (List MatchRec))
      (fin : List MatchRec → List OutRow),
      (match x with
        | Except.error e => Except.error e
        | Except.ok ms => Except.ok (fin ms)) = Except.map fin x := by
    intro x fin
    cases x <;> rfl
  have both_bridge : ∀ (x : Except String (List MatchRec))
      (g : List MatchRec → Except String (List MatchRec))
      (fin : List MatchRec → List OutRow),
      (match x with
        | Except.error e => Except.error e
        | Except.ok ex =>
          match g ex with
          | Except.error e => Except.error e
          | Except.ok fz => Except.ok (fin (ex ++ fz))) =
      Except.map fin (match x with
        | Except.error e => Except.error e
        | Except.ok ex =>
          match g ex with
          | Except.error e => Except.error e
          | Except.ok fz => Except.ok (ex ++ fz)) := by
    intro x g fin
    cases x with
    | error e => rfl
    | ok ex =>
      show (match g ex with
        | Except.error e => Except.error e
        | Except.ok fz => Except.ok (fin (ex ++ fz))) =
        Except.map fin (match g ex with
        | Except.error e => Except.error e
        | Except.ok fz => Except.ok (ex ++ fz))
      cases g ex <;> rfl
  unfold matchToFruns collectMatches
  cases method with
  | exact => exact map_bridge _ _
  | fuzzy => exact map_bridge _ _
  | both =>
    exact both_bridge (findExactMatches (prepareInput data hmap) fr)
      (fun ex =>
        if ((prepareInput data hmap).filter (fun r =>
            r.row_id ∉ ex.map (fun m => m.row_id))).isEmpty then Except.ok []
        else matchFuzzy sim ((prepareInput data hmap).filter (fun r =>
          r.row_id ∉ ex.map (fun m => m.row_id))) fr maxD)
      (fun ms => finalizeMatches (prepareInput data hmap) ms keep)

/-- Ids of rows kept by a filter remain distinct, for the "both" mode's
unmatched row set. -/
lemma filter_ids_nodup (rows : List PreparedRow) (p : PreparedRow → Bool)
    (h : (rows.map (fun r => r.row_id)).Nodup) :
    ((rows.filter p).map (fun r => r.row_id)).Nodup :=
  h.sublist ((List.filter_sublist rows).map _)

/-- A successful match collection has at most one record per row id, and
every record id is an input row id. -/
lemma collect_ok (sim : String → String → ℚ) (data : List PyVal) (method : Method)
    (fr : List FrunsEntry) (hmap : List (String × String)) (maxD : ℚ)
    (ms : List MatchRec)
    (hok : collectMatches sim data method fr hmap maxD = Except.ok ms) :
    (∀ k, countId ms k ≤ 1) ∧
      ∀ m ∈ ms, m.row_id ∈ (prepareInput data hmap).map (fun r => r.row_id) := by
  have hids := prepareInput_row_id_nodup data hmap
  unfold collectMatches at hok
  cases method with
  | exact =>
    exact ⟨fun k => countId_findExact_le_one _ fr ms hids hok k,
      fun m hm => findExact_ids_subset _ fr ms hok m hm⟩
  | fuzzy =>
    rcases matchFuzzy_ok sim _ fr maxD ms hids hok with ⟨h1, h2⟩
    exact ⟨h1, h2⟩
  | both =>
    simp only [] at hok
    rcases hex : findExactMatches (prepareInput data hmap) fr with e | ex
    · rw [hex] at hok; exact absurd hok (by simp)
    · rw [hex] at hok
      simp only [] at hok
      rcases hfz : (if ((prepareInput data hmap).filter (fun r =>
          r.row_id ∉ ex.map (fun m => m.row_id))).isEmpty then Except.ok []
        else matchFuzzy sim ((prepareInput data hmap).filter (fun r =>
          r.row_id ∉ ex.map (fun m => m.row_id))) fr maxD) with e | fz
      · rw [hfz] at hok; exact absurd hok (by simp)
      · rw [hfz] at hok
        have hms : ms = ex ++ fz := (Except.ok.inj hok).symm
        subst hms
        have hexC := countId_findExact_le_one _ fr ex hids hex
        have hexS := findExact_ids_subset _ fr ex hex
        have hfzP : (∀ k, countId fz k ≤ 1) ∧
            ∀ m ∈ fz, m.row_id ∈ ((prepareInput data hmap).filter (fun r =>
              r.row_id ∉ ex.map (fun x => x.row_id))).map (fun r => r.row_id) := by
          by_cases hemp : ((prepareInput data hmap).filter (fun r =>
              r.row_id ∉ ex.map (fun m => m.row_id))).isEmpty
          · rw [if_pos hemp] at hfz
            have : fz = [] := (Except.ok.inj hfz).symm
            subst this
            exact ⟨fun k => by simp [countId], fun m hm => absurd hm (List.not_mem_nil m)⟩
          · rw [if_neg hemp] at hfz
            exact matchFuzzy_ok sim _ fr maxD fz (filter_ids_nodup _ _ hids) hfz
        constructor
        · intro k
          rw [countId_append]
          by_cases hA : 0 < countId ex k
          · have hB : countId fz k = 0 := by
              by_contra hB
              rcases countId_pos_mem _ _ (Nat.pos_of_ne_zero hB) with ⟨m, hm, hmk⟩
              have := hfzP.2 m hm
              rcases List.mem_map.mp this with ⟨r, hr, hrk⟩
              have hnot := (List.mem_filter.mp hr).2
              simp only [decide_eq_true_eq] at hnot
              rcases countId_pos_mem _ _ hA with ⟨m2, hm2, hm2k⟩
              exact hnot (by
                rw [hrk, hmk, ← hm2k]
                exact List.mem_map.mpr ⟨m2, hm2, rfl⟩)
            have := hexC k
            omega
          · have := hfzP.1 k
            omega
        · intro m hm
          rcases List.mem_append.mp hm with hmA | hmB
          · exact hexS m hmA
          · have := hfzP.2 m hmB
            rcases List.mem_map.mp this with ⟨r, hr, hrk⟩
            exact List.mem_map.mpr ⟨r, (List.mem_filter.mp hr).1, hrk⟩

lemma outFor_name (ms : List MatchRec) (keep : Bool) (r : PreparedRow) :
    (outFor ms keep r).name = r.name := by
  unfold outFor
  rcases hf : ms.filter (fun m => m.row_id = r.row_id) with _ | ⟨m, l⟩ <;> rw [hf] <;> rfl

lemma mkOut_none_fields (keep : Bool) (r : PreparedRow) :
    (mkOut keep r Option.none).fruns = none ∧ (mkOut keep r Option.none).match_type = none ∧
    (mkOut keep r Option.none).matched_brand = none ∧
    (mkOut keep r Option.none).distance = none := by
  cases keep <;> exact ⟨rfl, rfl, rfl, rfl⟩

lemma outFor_of_not_mem (ms : List MatchRec) (keep : Bool) (r : PreparedRow)
    (h : r.row_id ∉ ms.map (fun m => m.row_id)) :
    outFor ms keep r = mkOut keep r Option.none := by
  unfold outFor
  have hf : ms.filter (fun m => m.row_id = r.row_id) = [] := by
    refine List.filter_eq_nil_iff.mpr (fun m hm => ?_)
    simp only [decide_eq_true_eq]
    intro hmk
    exact h (List.mem_map.mpr ⟨m, hm, hmk⟩)
  rw [hf]

lemma outFor_match_type_none (ms : List MatchRec) (keep : Bool) (r : PreparedRow)
    (h : (outFor ms keep r).match_type = none) :
    outFor ms keep r = mkOut keep r Option.none := by
  unfold outFor at h ⊢
  rcases hf : ms.filter (fun m => m.row_id = r.row_id) with _ | ⟨m, l⟩
  · rw [hf]
  · rw [hf] at h
    exact absurd h (by simp [mkOut])

lemma prepareInput_getElem (data : List PyVal) (hmap : List (String × String))
    (i : Nat) (h : i < data.length) :
    ∃ r, (prepareInput data hmap)[i]? = some r ∧ r.row_id = i := by
  have h1 : ((prepareInput data hmap).map (fun r => r.row_id))[i]? = some i := by
    rw [prepareInput_map_row_id]
    exact List.getElem?_range h
  rw [List.getElem?_map] at h1
  rcases Option.map_eq_some'.mp h1 with ⟨r, hr, hrk⟩
  exact ⟨r, hr, hrk⟩

/-- C2: on every successful run, `match_to_fruns` returns exactly one output
row per input row, in input order with the original name preserved; rows
with no provenance have all identifier/diagnostic columns null, and any row
id matched by no stage produces an output row with null identifier and
provenance. -/
theorem C2_merge_policy (sim : String → String → ℚ) (data : List PyVal)
    (method : Method) (fr : List FrunsEntry) (hmap : List (String × String))
    (maxD : ℚ) (keep : Bool) (out : List OutRow)
    (hok : matchToFruns sim data method fr hmap maxD keep = Except.ok out) :
    out.map (fun o => o.name) = data ∧
    (∀ o ∈ out, o.match_type = none →
      o.fruns = none ∧ o.matched_brand = none ∧ o.distance = none) ∧
    (∀ ms, collectMatches sim data method fr hmap maxD = Except.ok ms →
      ∀ i o, out[i]? = some o → i ∉ ms.map (fun m => m.row_id) →
        o.fruns = none ∧ o.match_type = none) := by
  rw [matchToFruns_eq_collect] at hok
  rcases hc : collectMatches sim data method fr hmap maxD with e | ms
  · rw [hc] at hok; exact absurd hok (by simp [Except.map])
  · rw [hc] at hok
    have hout : out = finalizeMatches (prepareInput data hmap) ms keep := by
      simp only [Except.map] at hok
      exact (Except.ok.inj hok).symm
    have hcnt := (collect_ok sim data method fr hmap maxD ms hc).1
    have hmapped : out = (prepareInput data hmap).map (outFor ms keep) := by
      rw [hout]; exact finalize_eq_map _ ms keep hcnt
    refine ⟨?_, ?_, ?_⟩
    · rw [hmapped, List.map_map]
      have : ((fun o : OutRow => o.name) ∘ outFor ms keep) =
          (fun r : PreparedRow => r.name) := funext (fun r => outFor_name ms keep r)
      rw [this, prepareInput_map_name]
    · intro o ho hmt
      rw [hmapped] at ho
      rcases List.mem_map.mp ho with ⟨r, _, rfl⟩
      rw [outFor_match_type_none ms keep r hmt]
      rcases mkOut_none_fields keep r with ⟨h1, _, h3, h4⟩
      exact ⟨h1, h3, h4⟩
    · intro ms2 hc2 i o ho hni
      have hms2 : ms = ms2 := Except.ok.inj hc2
      subst hms2
      rw [hmapped, List.getElem?_map] at ho
      rcases Option.map_eq_some'.mp ho with ⟨r, hr, hro⟩
      have h1 : ((prepareInput data hmap).map (fun x => x.row_id))[i]? = some r.row_id := by
        rw [List.getElem?_map, hr]; rfl
      rw [prepareInput_map_row_id] at h1
      have hlt : i < data.length := by
        by_contra hge
        push_neg at hge
        rw [List.getElem?_eq_none (by simpa using hge)] at h1
        exact absurd h1 (by simp)
      rw [List.getElem?_range hlt] at h1
      have hri : r.row_id = i := (Option.some.inj h1).symm
      rw [← hro, outFor_of_not_mem ms keep r (hri ▸ hni)]
      rcases mkOut_none_fields keep r with ⟨hf1, hf2, _, _⟩
      exact ⟨hf1, hf2⟩

lemma findExact_multiple_fruns_none (rows : List PreparedRow) (fr : List FrunsEntry)
    (ms : List MatchRec) (m : MatchRec) (hok : findExactMatches rows fr = Except.ok ms)
    (hm : m ∈ ms) (hmt : m.match_type = "franchisor_multiple") : m.fruns = none := by
  rcases findExact_ok rows fr ms hok with ⟨_, rfl⟩
  rcases List.mem_append.mp hm with h' | hC
  · rcases List.mem_append.mp h' with hA | hB
    · exact absurd (((mem_exactBrand_shape rows fr m hA).1).symm.trans hmt) (by decide)
    · exact absurd (((mem_exactFran_shape rows fr m hB).1).symm.trans hmt) (by decide)
  · exact (mem_franMult_shape rows fr m hC).2.1

lemma outFor_single (ms : List MatchRec) (keep : Bool) (r : PreparedRow) (m : MatchRec)
    (h : ms.filter (fun x => x.row_id = r.row_id) = [m]) :
    outFor ms keep r = mkOut keep r (some m) := by
  unfold outFor
  rw [h]

/-- C1 (amended): in `both` mode every row with an exact-stage outcome —
`franchisor_multiple` included — is withheld from the fuzzy stage: its
exact-stage record is final, so a `franchisor_multiple` row keeps that tag
and its null identifier in the output regardless of the fuzzy scorer. -/
theorem C1_both_multiple_not_fuzzied (sim : String → String → ℚ) (data : List PyVal)
    (fr : List FrunsEntry) (hmap : List (String × String)) (maxD : ℚ) (keep : Bool)
    (ex : List MatchRec) (out : List OutRow) (m : MatchRec)
    (hex : findExactMatches (prepareInput data hmap) fr = Except.ok ex)
    (hok : matchToFruns sim data Method.both fr hmap maxD keep = Except.ok out)
    (hm : m ∈ ex) (hmt : m.match_type = "franchisor_multiple") :
    ∃ o, out[m.row_id]? = some o ∧ o.match_type = some "franchisor_multiple" ∧
      o.fruns = none := by
  rw [matchToFruns_eq_collect] at hok
  rcases hc : collectMatches sim data Method.both fr hmap maxD with e | ms
  · rw [hc] at hok; exact absurd hok (by simp [Except.map])
  · rw [hc] at hok
    simp only [Except.map] at hok
    have hout : out = finalizeMatches (prepareInput data hmap) ms keep :=
      (Except.ok.inj hok).symm
    have hcnt := (collect_ok sim data Method.both fr hmap maxD ms hc).1
    have hsub := (collect_ok sim data Method.both fr hmap maxD ms hc).2
    have hmem : m ∈ ms := by
      unfold collectMatches at hc
      simp only [] at hc
      rw [hex] at hc
      simp only [] at hc
      rcases hfz : (if ((prepareInput data hmap).filter (fun r =>
          r.row_id ∉ ex.map (fun m => m.row_id))).isEmpty then Except.ok []
        else matchFuzzy sim ((prepareInput data hmap).filter (fun r =>
          r.row_id ∉ ex.map (fun m => m.row_id))) fr maxD) with e | fz
      · rw [hfz] at hc; exact absurd hc (by simp)
      · rw [hfz] at hc
        have hms : ms = ex ++ fz := (Except.ok.inj hc).symm
        rw [hms]
        exact List.mem_append_left fz hm
    have hfn : m.fruns = none :=
      findExact_multiple_fruns_none _ fr ex m hex hm hmt
    have hlt : m.row_id < data.length := by
      have := hsub m hmem
      rw [prepareInput_map_row_id] at this
      exact List.mem_range.mp this
    rcases prepareInput_getElem data hmap m.row_id hlt with ⟨r, hr, hri⟩
    have hmapped : out = (prepareInput data hmap).map (outFor ms keep) := by
      rw [hout]; exact finalize_eq_map _ ms keep hcnt
    refine ⟨outFor ms keep r, ?_, ?_, ?_⟩
    · rw [hmapped, List.getElem?_map, hr]; rfl
    · rw [outFor_single ms keep r m
        (mem_filter_singleton ms r.row_id m hmem (hri ▸ rfl) (hcnt r.row_id))]
      rw [show (mkOut keep r (some m)).match_type = some m.match_type from rfl, hmt]
    · rw [outFor_single ms keep r m
        (mem_filter_singleton ms r.row_id m hmem (hri ▸ rfl) (hcnt r.row_id))]
      rw [show (mkOut keep r (some m)).fruns = m.fruns from rfl, hfn]

lemma mem_brandTbl (fr : List FrunsEntry) (p : String × String) (hp : p ∈ brandTbl fr) :
    ∃ e ∈ fr, e.brand_name_sanitized = some p.1 ∧ p.2 = e.fruns := by
  rcases List.mem_filter.mp hp with ⟨hp1, _⟩
  rcases List.mem_filterMap.mp hp1 with ⟨e, he, hee⟩
  rcases Option.map_eq_some'.mp hee with ⟨b, hb, hbe⟩
  exact ⟨e, he, by rw [hb, ← hbe], by rw [← hbe]⟩

lemma mem_franTbl (fr : List FrunsEntry) (p : String × String) (hp : p ∈ franTbl fr) :
    ∃ e ∈ fr, e.franchisor_sanitized = some p.1 ∧ p.2 = e.fruns := by
  rcases List.mem_filter.mp hp with ⟨hp1, _⟩
  rcases List.mem_filterMap.mp hp1 with ⟨e, he, hee⟩
  rcases Option.map_eq_some'.mp hee with ⟨f, hf, hfe⟩
  exact ⟨e, he, by rw [hf, ← hfe], by rw [← hfe]⟩

/-- The franchisor join table has exactly one pair per reference entry whose
sanitized franchisor equals a given non-empty name. -/
lemma franTbl_key_count (fr : List FrunsEntry) (h : String) (hne : h ≠ "") :
    ((franTbl fr).filter (fun p => p.1 = h)).length =
      (fr.filter (fun e => e.franchisor_sanitized = some h)).length := by
  have core : ∀ l : List FrunsEntry,
      (l.filterMap (fun e => e.franchisor_sanitized.map (fun f => (f, e.fruns)))).countP
        (fun p => p.1 = h) = l.countP (fun e => e.franchisor_sanitized = some h) := by
    intro l
    induction l with
    | nil => rfl
    | cons e t ih =>
      rw [List.filterMap_cons]
      rcases hf : e.franchisor_sanitized with _ | f
      · rw [List.countP_cons]
        simp [hf, ih]
      · rw [Option.map_some', List.countP_cons, List.countP_cons]
        simp only [hf, ih]
        by_cases hfh : f = h <;> simp [hfh]
  rw [← List.countP_eq_length_filter, ← List.countP_eq_length_filter]
  unfold franTbl
  rw [List.countP_filter]
  rw [show (fun p : String × String => decide (p.1 = h) && decide (p.1 ≠ "")) =
      (fun p : String × String => decide (p.1 = h)) from funext (fun p => by
        by_cases hp : p.1 = h
        · subst hp; simp [hne]
        · simp [hp])]
  exact core fr

/-- In a per-row join, the entries carrying one row's id are exactly that
row's entries (row ids distinct). -/
lemma filter_flatMap_id (rows : List PreparedRow)
    (g : PreparedRow → List (PreparedRow × String))
    (hids : (rows.map (fun r => r.row_id)).Nodup)
    (hid : ∀ r' q, q ∈ g r' → q.1 = r')
    (r : PreparedRow) (hr : r ∈ rows) :
    ((rows.flatMap g).filter (fun q => q.1.row_id = r.row_id)).length = (g r).length := by
  induction rows with
  | nil => exact absurd hr (List.not_mem_nil r)
  | cons a t ih =>
    simp only [List.map_cons, List.nodup_cons] at hids
    rw [List.flatMap_cons, List.filter_append, List.length_append]
    by_cases hak : a.row_id = r.row_id
    · have har : a = r := by
        rcases List.mem_cons.mp hr with rfl | hrt
        · rfl
        · exact absurd (hak ▸ List.mem_map.mpr ⟨r, hrt, rfl⟩) hids.1
      subst har
      have hhead : (g a).filter (fun q => q.1.row_id = a.row_id) = g a := by
        refine List.filter_eq_self.mpr (fun q hq => by simp [hid a q hq])
      have htail : (t.flatMap g).filter (fun q => q.1.row_id = a.row_id) = [] := by
        refine List.filter_eq_nil_iff.mpr (fun q hq => ?_)
        simp only [decide_eq_true_eq]
        intro hqk
        rcases List.mem_flatMap.mp hq with ⟨r', hr', hqr'⟩
        exact hids.1 (by
          rw [← hqk, hid r' q hqr']
          exact List.mem_map.mpr ⟨r', hr', rfl⟩)
      rw [hhead, htail]
      simp
    · have hrt : r ∈ t := by
        rcases List.mem_cons.mp hr with rfl | hrt
        · exact absurd rfl hak
        · exact hrt
      have hhead : (g a).filter (fun q => q.1.row_id = r.row_id) = [] := by
        refine List.filter_eq_nil_iff.mpr (fun q hq => ?_)
        simp only [decide_eq_true_eq]
        rw [hid a q hq]
        exact hak
      rw [hhead]
      simpa using ih hids.2 hrt

/-- C4: a valid row whose harmonized name matches no reference brand but
equals the sanitized franchisor of `k` reference entries is emitted by the
exact stage with provenance `franchisor_multiple` and a null identifier when
`k ≥ 2`, and with provenance `franchisor` and that entry's identifier when
`k = 1`; the ambiguous case never picks one of the entries. -/
theorem C4_franchisor_ambiguity (rows : List PreparedRow) (fr : List FrunsEntry)
    (r : PreparedRow)
    (hids : (rows.map (fun x => x.row_id)).Nodup)
    (hr : r ∈ rows)
    (hne : r.name_harmonized ≠ "")
    (hbrand : ((brandTbl fr).map Prod.fst).Nodup)
    (hnob : ∀ e ∈ fr, e.brand_name_sanitized ≠ some r.name_harmonized) :
    ∃ ms, findExactMatches rows fr = Except.ok ms ∧
      (2 ≤ (fr.filter (fun e => e.franchisor_sanitized = some r.name_harmonized)).length →
        ms.filter (fun m => m.row_id = r.row_id) =
          [{ row_id := r.row_id, fruns := none, match_type := "franchisor_multiple",
             matched_brand := none, distance := none }]) ∧
      ((fr.filter (fun e => e.franchisor_sanitized = some r.name_harmonized)).length = 1 →
        ∃ e ∈ fr, e.franchisor_sanitized = some r.name_harmonized ∧
          ms.filter (fun m => m.row_id = r.row_id) =
            [{ row_id := r.row_id, fruns := some e.fruns, match_type := "franchisor",
               matched_brand := none, distance := none }]) := by
  have hexists : ∃ ms, findExactMatches rows fr = Except.ok ms := by
    unfold findExactMatches
    rw [if_pos hbrand]
    by_cases hj : (franJoined rows fr).isEmpty
    · exact ⟨_, by rw [if_pos hj]⟩
    · exact ⟨_, by rw [if_neg hj]⟩
  rcases hexists with ⟨ms, hok⟩
  have hvalid : r ∈ validRows rows := List.mem_filter.mpr ⟨hr, by simpa using hne⟩
  -- r has no brand match, hence no `exact` record carries its id
  have hnoA : ∀ m ∈ exactBrandMatches rows fr, m.row_id ≠ r.row_id := by
    intro m hm
    rcases List.mem_flatMap.mp hm with ⟨r', hr', hmr⟩
    rcases List.mem_map.mp hmr with ⟨p, hp, rfl⟩
    simp only []
    intro hid
    have hrr : r' = r := List.inj_on_of_nodup_map
      (validRows_ids_nodup rows hids) hr' hvalid hid
    subst hrr
    rcases List.mem_filter.mp hp with ⟨hp1, hp2⟩
    rcases mem_brandTbl fr p hp1 with ⟨e, he, hb, _⟩
    simp only [decide_eq_true_eq] at hp2
    exact hnob e he (by rw [hb, hp2])
  have hunm : r ∈ exactUnmatched rows fr := by
    refine List.mem_filter.mpr ⟨hvalid, ?_⟩
    simp only [decide_eq_true_eq]
    intro hmem
    rcases List.mem_map.mp hmem with ⟨m, hm, hmk⟩
    exact hnoA m hm hmk
  have hcount : nMatchesAt rows fr r.row_id =
      (fr.filter (fun e => e.franchisor_sanitized = some r.name_harmonized)).length := by
    unfold nMatchesAt franJoined
    rw [filter_flatMap_id (exactUnmatched rows fr) _
      (exactUnmatched_ids_nodup rows fr hids)
      (fun r' q hq => by
        rcases List.mem_map.mp hq with ⟨p, _, rfl⟩
        rfl) r hunm]
    rw [List.length_map]
    exact franTbl_key_count fr r.name_harmonized hne
  have hle := countId_findExact_le_one rows fr ms hids hok
  refine ⟨ms, hok, ?_, ?_⟩
  · -- ambiguous case
    intro hk2
    have hn2 : 1 < nMatchesAt rows fr r.row_id := by omega
    have hpex : ∃ p, p ∈ (franTbl fr).filter (fun p => p.1 = r.name_harmonized) := by
      apply List.exists_mem_of_length_pos
      rw [franTbl_key_count fr r.name_harmonized hne]
      omega
    rcases hpex with ⟨p, hp⟩
    have hq : (r, p.2) ∈ franJoined rows fr :=
      List.mem_flatMap.mpr ⟨r, hunm, List.mem_map.mpr ⟨p, hp, rfl⟩⟩
    have hmult : r ∈ (exactUnmatched rows fr).filter (fun x =>
        x.row_id ∈ ((franJoined rows fr).filter
          (fun q => 1 < nMatchesAt rows fr q.1.row_id)).map (fun q => q.1.row_id)) := by
      refine List.mem_filter.mpr ⟨hunm, ?_⟩
      simp only [decide_eq_true_eq]
      refine List.mem_map.mpr ⟨(r, p.2), List.mem_filter.mpr ⟨hq, by simpa using hn2⟩, rfl⟩
    have hmC : (⟨r.row_id, none, "franchisor_multiple", none, none⟩ : MatchRec) ∈
        franMultMatches rows fr :=
      List.mem_map.mpr ⟨r, hmult, rfl⟩
    have hmms : (⟨r.row_id, none, "franchisor_multiple", none, none⟩ : MatchRec) ∈ ms := by
      rcases findExact_ok rows fr ms hok with ⟨_, rfl⟩
      exact List.mem_append_right _ hmC
    exact mem_filter_singleton ms r.row_id _ hmms rfl (hle r.row_id)
  · -- unambiguous case
    intro hk1
    have hn1 : nMatchesAt rows fr r.row_id = 1 := by omega
    have hpex : ∃ p, p ∈ (franTbl fr).filter (fun p => p.1 = r.name_harmonized) := by
      apply List.exists_mem_of_length_pos
      rw [franTbl_key_count fr r.name_harmonized hne]
      omega
    rcases hpex with ⟨p, hp⟩
    rcases mem_franTbl fr p (List.mem_filter.mp hp).1 with ⟨e, he, hef, hpf⟩
    have hph : p.1 = r.name_harmonized := by
      have := (List.mem_filter.mp hp).2
      simpa using this
    have hq : (r, p.2) ∈ franJoined rows fr :=
      List.mem_flatMap.mpr ⟨r, hunm, List.mem_map.mpr ⟨p, hp, rfl⟩⟩
    have hmB : (⟨r.row_id, some p.2, "franchisor", none, none⟩ : MatchRec) ∈
        exactFranMatches rows fr := by
      refine List.mem_map.mpr ⟨(r, p.2), List.mem_filter.mpr ⟨hq, by simpa using hn1⟩, rfl⟩
    have hmms : (⟨r.row_id, some p.2, "franchisor", none, none⟩ : MatchRec) ∈ ms := by
      rcases findExact_ok rows fr ms hok with ⟨_, rfl⟩
      exact List.mem_append_left _ (List.mem_append_right _ hmB)
    refine ⟨e, he, by rw [hef, hph], ?_⟩
    rw [← hpf]
    exact mem_filter_singleton ms r.row_id _ hmms rfl (hle r.row_id)

lemma ratFloorZ_bounds (q : ℚ) : (ratFloorZ q : ℚ) ≤ q ∧ q < (ratFloorZ q : ℚ) + 1 := by
  have hden : (0 : ℤ) < (q.den : ℤ) := by exact_mod_cast q.pos
  have hid : (q.den : ℤ) * (Int.fdiv q.num q.den) + Int.fmod q.num q.den = q.num :=
    Int.fdiv_add_fmod q.num q.den
  have hr0 : (0 : ℤ) ≤ Int.fmod q.num q.den := Int.fmod_nonneg' q.num hden
  have hrlt : Int.fmod q.num q.den < (q.den : ℤ) := Int.fmod_lt_of_pos q.num hden
  have hdenQ : (0 : ℚ) < (q.den : ℚ) := by exact_mod_cast q.pos
  have hnum : (q.num : ℚ) = q * (q.den : ℚ) := by
    have h := Rat.num_div_den q
    have hd : (q.den : ℚ) ≠ 0 := ne_of_gt (by exact_mod_cast q.pos)
    rw [div_eq_iff hd] at h
    exact h
  have hqQ : (q.den : ℚ) * (ratFloorZ q : ℚ) + (Int.fmod q.num q.den : ℚ) = q * (q.den : ℚ) := by
    rw [← hnum]
    exact_mod_cast hid
  have hr0Q : (0 : ℚ) ≤ (Int.fmod q.num q.den : ℚ) := by exact_mod_cast hr0
  have hrltQ : (Int.fmod q.num q.den : ℚ) < (q.den : ℚ) := by exact_mod_cast hrlt
  constructor
  · nlinarith
  · nlinarith

lemma roundHalfEven_near (q : ℚ) : |(roundHalfEven q : ℚ) - q| ≤ 1/2 := by
  rcases ratFloorZ_bounds q with ⟨h1, h2⟩
  unfold roundHalfEven
  by_cases hr1 : q - (ratFloorZ q : ℚ) < 1/2
  · rw [if_pos hr1, abs_le]
    constructor <;> linarith
  · rw [if_neg hr1]
    by_cases hr2 : (1 : ℚ)/2 < q - (ratFloorZ q : ℚ)
    · rw [if_pos hr2]
      push_cast
      rw [abs_le]
      constructor <;> linarith
    · rw [if_neg hr2]
      by_cases he : ratFloorZ q % 2 = 0
      · rw [if_pos he, abs_le]
        constructor <;> linarith
      · rw [if_neg he]
        push_cast
        rw [abs_le]
        constructor <;> linarith

lemma round4_near (q : ℚ) : |round4 q - q| ≤ 1/20000 := by
  have h := roundHalfEven_near (q * 10000)
  unfold round4
  have : (roundHalfEven (q * 10000) : ℚ) / 10000 - q =
      ((roundHalfEven (q * 10000) : ℚ) - q * 10000) / 10000 := by ring
  rw [this, abs_div]
  rw [show |(10000 : ℚ)| = 10000 from by norm_num]
  rw [div_le_iff (by norm_num)]
  calc |(roundHalfEven (q * 10000) : ℚ) - q * 10000| ≤ 1/2 := h
    _ ≤ 1/20000 * 10000 := by norm_num

lemma round4_grid (q : ℚ) : ∃ z : ℤ, round4 q * 10000 = (z : ℚ) := by
  refine ⟨roundHalfEven (q * 10000), ?_⟩
  unfold round4
  field_simp

lemma ratFloorZ_intCast (z : ℤ) : ratFloorZ (z : ℚ) = z := by
  unfold ratFloorZ
  rw [Rat.num_intCast, Rat.den_intCast]
  exact Int.fdiv_one z

lemma roundHalfEven_intCast (z : ℤ) : roundHalfEven (z : ℚ) = z := by
  unfold roundHalfEven
  rw [ratFloorZ_intCast]
  rw [if_pos (by norm_num)]

lemma round4_of_grid (q : ℚ) (h : ∃ z : ℤ, q * 10000 = (z : ℚ)) : round4 q = q := by
  rcases h with ⟨z, hz⟩
  unfold round4
  rw [hz, roundHalfEven_intCast, ← hz]
  field_simp

lemma grid_lt_le (a b : ℚ) (ha : ∃ z : ℤ, a * 10000 = (z : ℚ))
    (hb : ∃ z : ℤ, b * 10000 = (z : ℚ)) (h : a < b) : a ≤ b - 1/10000 := by
  rcases ha with ⟨za, hza⟩
  rcases hb with ⟨zb, hzb⟩
  have hzz : za < zb := by
    have : (za : ℚ) < (zb : ℚ) := by
      rw [← hza, ← hzb]
      nlinarith
    exact_mod_cast this
  have : (za : ℚ) ≤ (zb : ℚ) - 1 := by
    have : za ≤ zb - 1 := by omega
    push_cast
    exact_mod_cast this
  nlinarith [hza, hzb]

/-- Once the running best is at least every remaining score, it never
changes (later ties never replace it: the first best is kept). -/
lemma extractOneGo_const (sim : String → String → ℚ) (name : String) (cutoff : ℚ)
    (b0 : String) (s0 : ℚ) (rest : List String)
    (hall : ∀ c ∈ rest, sim name c ≤ s0) :
    extractOneGo sim name cutoff (some (b0, s0)) rest = some (b0, s0) := by
  induction rest with
  | nil => rfl
  | cons c t ih =>
    have hc : sim name c ≤ s0 := hall c (List.mem_cons_self c t)
    show extractOneGo sim name cutoff _ t = _
    have hb : (if cutoff ≤ sim name c then
        match (some (b0, s0) : Option (String × ℚ)) with
        | Option.none => some (c, sim name c)
        | some bs => if bs.2 < sim name c then some (c, sim name c) else some bs
      else some (b0, s0)) = some (b0, s0) := by
      by_cases hcs : cutoff ≤ sim name c
      · rw [if_pos hcs]
        simp only []
        rw [if_neg (not_lt.mpr hc)]
      · rw [if_neg hcs]
    rw [hb]
    exact ih (fun x hx => hall x (List.mem_cons_of_mem c hx))

/-- From a running best strictly below the maximum, the scan reaches a
candidate attaining the maximum. -/
lemma extractOneGo_reach (sim : String → String → ℚ) (name : String) (cutoff : ℚ)
    (M : ℚ) (hc : cutoff ≤ M) :
    ∀ (rest : List String) (b : String), b ∈ rest → sim name b = M →
      (∀ c ∈ rest, sim name c ≤ M) → ∀ b0 s0, s0 < M →
      ∃ b2, b2 ∈ rest ∧ sim name b2 = M ∧
        extractOneGo sim name cutoff (some (b0, s0)) rest = some (b2, M) := by
  intro rest
  induction rest with
  | nil => intro b hb; exact absurd hb (List.not_mem_nil b)
  | cons c t ih =>
    intro b hb hM hall b0 s0 hs0
    by_cases hcM : sim name c = M
    · refine ⟨c, List.mem_cons_self c t, hcM, ?_⟩
      show extractOneGo sim name cutoff _ t = _
      have hb' : (if cutoff ≤ sim name c then
          match (some (b0, s0) : Option (String × ℚ)) with
          | Option.none => some (c, sim name c)
          | some bs => if bs.2 < sim name c then some (c, sim name c) else some bs
        else some (b0, s0)) = some (c, M) := by
        rw [if_pos (hcM ▸ hc)]
        simp only []
        rw [if_pos (hcM ▸ hs0), hcM]
      rw [hb']
      exact extractOneGo_const sim name cutoff c M t
        (fun x hx => hall x (List.mem_cons_of_mem c hx))
    · have hcltM : sim name c < M :=
        lt_of_le_of_ne (hall c (List.mem_cons_self c t)) hcM
      have hbt : b ∈ t := by
        rcases List.mem_cons.mp hb with rfl | hbt
        · exact absurd hM hcM
        · exact hbt
      have hallt : ∀ x ∈ t, sim name x ≤ M :=
        fun x hx => hall x (List.mem_cons_of_mem c hx)
      show ∃ b2, b2 ∈ c :: t ∧ _ ∧ extractOneGo sim name cutoff _ t = _
      by_cases hcs : cutoff ≤ sim name c
      · by_cases hrepl : s0 < sim name c
        · have hb' : (if cutoff ≤ sim name c then
              match (some (b0, s0) : Option (String × ℚ)) with
              | Option.none => some (c, sim name c)
              | some bs => if bs.2 < sim name c then some (c, sim name c) else some bs
            else some (b0, s0)) = some (c, sim name c) := by
            rw [if_pos hcs]
            simp only []
            rw [if_pos hrepl]
          rw [hb']
          rcases ih b hbt hM hallt c (sim name c) hcltM with ⟨b2, hb2, hb2M, hres⟩
          exact ⟨b2, List.mem_cons_of_mem c hb2, hb2M, hres⟩
        · have hb' : (if cutoff ≤ sim name c then
              match (some (b0, s0) : Option (String × ℚ)) with
              | Option.none => some (c, sim name c)
              | some bs => if bs.2 < sim name c then some (c, sim name c) else some bs
            else some (b0, s0)) = some (b0, s0) := by
            rw [if_pos hcs]
            simp only []
            rw [if_neg hrepl]
          rw [hb']
          rcases ih b hbt hM hallt b0 s0 hs0 with ⟨b2, hb2, hb2M, hres⟩
          exact ⟨b2, List.mem_cons_of_mem c hb2, hb2M, hres⟩
      · have hb' : (if cutoff ≤ sim name c then
            match (some (b0, s0) : Option (String × ℚ)) with
            | Option.none => some (c, sim name c)
            | some bs => if bs.2 < sim name c then some (c, sim name c) else some bs
          else some (b0, s0)) = some (b0, s0) := by
          rw [if_neg hcs]
        rw [hb']
        rcases ih b hbt hM hallt b0 s0 hs0 with ⟨b2, hb2, hb2M, hres⟩
        exact ⟨b2, List.mem_cons_of_mem c hb2, hb2M, hres⟩

/-- `extractOne` returns some candidate attaining the maximal similarity
when the maximum clears the cutoff. -/
lemma extractOne_attains (sim : String → String → ℚ) (name : String) (cutoff : ℚ)
    (brands : List String) (b : String) (hb : b ∈ brands)
    (hc : cutoff ≤ sim name b)
    (hmax : ∀ c ∈ brands, sim name c ≤ sim name b) :
    ∃ b2, b2 ∈ brands ∧ sim name b2 = sim name b ∧
      extractOne sim name cutoff brands = some (b2, sim name b) := by
  induction brands with
  | nil => exact absurd hb (List.not_mem_nil b)
  | cons c t ih =>
    unfold extractOne extractOneGo
    by_cases hcM : sim name c = sim name b
    · refine ⟨c, List.mem_cons_self c t, hcM, ?_⟩
      simp only []
      rw [if_pos (hcM ▸ hc), hcM]
      exact extractOneGo_const sim name cutoff c (sim name b) t
        (fun x hx => hmax x (List.mem_cons_of_mem c hx))
    · have hcltM : sim name c < sim name b :=
        lt_of_le_of_ne (hmax c (List.mem_cons_self c t)) hcM
      have hbt : b ∈ t := by
        rcases List.mem_cons.mp hb with rfl | hbt
        · exact absurd rfl hcM
        · exact hbt
      have hallt : ∀ x ∈ t, sim name x ≤ sim name b :=
        fun x hx => hmax x (List.mem_cons_of_mem c hx)
      by_cases hcs : cutoff ≤ sim name c
      · simp only []
        rw [if_pos hcs]
        rcases extractOneGo_reach sim name cutoff (sim name b) hc t b hbt rfl hallt
          c (sim name c) hcltM with ⟨b2, hb2, hb2M, hres⟩
        exact ⟨b2, List.mem_cons_of_mem c hb2, hb2M, hres⟩
      · simp only []
        rw [if_neg hcs]
        rcases ih hbt hallt with ⟨b2, hb2, hb2M, hres⟩
        exact ⟨b2, List.mem_cons_of_mem c hb2, hb2M, hres⟩

/-- Whatever `extractOne`'s scan returns either was the starting best or is
a scanned candidate whose own similarity cleared the cutoff. -/
lemma extractOneGo_some_inv (sim : String → String → ℚ) (name : String) (cutoff : ℚ) :
    ∀ (rest : List String) (best : Option (String × ℚ)) (b2 : String) (s : ℚ),
      extractOneGo sim name cutoff best rest = some (b2, s) →
      best = some (b2, s) ∨ (b2 ∈ rest ∧ s = sim name b2 ∧ cutoff ≤ s) := by
  intro rest
  induction rest with
  | nil => intro best b2 s h; exact Or.inl h
  | cons c t ih =>
    intro best b2 s h
    rcases best with _ | bs
    · have h' : extractOneGo sim name cutoff
          (if cutoff ≤ sim name c then some (c, sim name c) else Option.none) t =
          some (b2, s) := h
      rcases ih _ b2 s h' with hbest | hrest
      · by_cases hcs : cutoff ≤ sim name c
        · rw [if_pos hcs] at hbest
          simp only [Option.some.injEq, Prod.mk.injEq] at hbest
          rcases hbest with ⟨rfl, rfl⟩
          exact Or.inr ⟨List.mem_cons_self c t, rfl, hcs⟩
        · rw [if_neg hcs] at hbest
          exact absurd hbest (by simp)
      · exact Or.inr ⟨List.mem_cons_of_mem c hrest.1, hrest.2⟩
    · have h' : extractOneGo sim name cutoff
          (if cutoff ≤ sim name c then
            (if bs.2 < sim name c then some (c, sim name c) else some bs)
          else some bs) t = some (b2, s) := h
      rcases ih _ b2 s h' with hbest | hrest
      · by_cases hcs : cutoff ≤ sim name c
        · rw [if_pos hcs] at hbest
          by_cases hrepl : bs.2 < sim name c
          · rw [if_pos hrepl] at hbest
            simp only [Option.some.injEq, Prod.mk.injEq] at hbest
            rcases hbest with ⟨rfl, rfl⟩
            exact Or.inr ⟨List.mem_cons_self c t, rfl, hcs⟩
          · rw [if_neg hrepl] at hbest
            exact Or.inl hbest
        · rw [if_neg hcs] at hbest
          exact Or.inl hbest
      · exact Or.inr ⟨List.mem_cons_of_mem c hrest.1, hrest.2⟩

/-- C3: with the nearest reference brand at Jaro-Winkler distance
`d = 1 - similarity`, the fuzzy matcher accepts the best candidate exactly
when `round(d, 4)` is strictly below `max_distance` (itself a 4-decimal
value): rounded distance `< max_distance` accepts it, rounded distance
`= max_distance` rejects it, and distance `max_distance - 0.0001` accepts
it. -/
theorem C3_fuzzy_threshold (sim : String → String → ℚ) (maxD : ℚ) (name : String)
    (brands : List String) (b : String)
    (hgrid : ∃ z : ℤ, maxD * 10000 = (z : ℚ))
    (hb : b ∈ brands)
    (hmax : ∀ c ∈ brands, sim name c ≤ sim name b) :
    (round4 (1 - sim name b) < maxD →
      ∃ b2, b2 ∈ brands ∧ sim name b2 = sim name b ∧
        fuzzyBest sim maxD name brands = some (b2, 1 - sim name b)) ∧
    (round4 (1 - sim name b) = maxD → fuzzyBest sim maxD name brands = Option.none) ∧
    (1 - sim name b = maxD - 1/10000 →
      ∃ b2, b2 ∈ brands ∧ sim name b2 = sim name b ∧
        fuzzyBest sim maxD name brands = some (b2, 1 - sim name b)) := by
  have parta : round4 (1 - sim name b) < maxD →
      ∃ b2, b2 ∈ brands ∧ sim name b2 = sim name b ∧
        fuzzyBest sim maxD name brands = some (b2, 1 - sim name b) := by
    intro hacc
    have hstep : round4 (1 - sim name b) ≤ maxD - 1/10000 :=
      grid_lt_le _ maxD (round4_grid _) hgrid hacc
    have hnear := round4_near (1 - sim name b)
    rw [abs_le] at hnear
    have hdlt : 1 - sim name b < maxD := by linarith
    have hcut : 1 - maxD ≤ sim name b := by linarith
    rcases extractOne_attains sim name (1 - maxD) brands b hb hcut hmax with
      ⟨b2, hb2, hb2M, hres⟩
    refine ⟨b2, hb2, hb2M, ?_⟩
    have hfb : fuzzyBest sim maxD name brands =
        (if round4 (1 - sim name b) < maxD then some (b2, 1 - sim name b)
          else Option.none) := by
      unfold fuzzyBest
      rw [hres]
    rw [hfb, if_pos hacc]
  refine ⟨parta, ?_, ?_⟩
  · intro heq
    rcases hextr : extractOne sim name (1 - maxD) brands with _ | bs
    · unfold fuzzyBest
      rw [hextr]
    · have hextr' : extractOneGo sim name (1 - maxD) Option.none brands =
          some (bs.1, bs.2) := hextr
      rcases extractOneGo_some_inv sim name (1 - maxD) brands Option.none bs.1 bs.2
        hextr' with hnone | ⟨hmem, hsim, hcut⟩
      · exact absurd hnone (by simp)
      · have hle : bs.2 ≤ sim name b := hsim ▸ hmax bs.1 hmem
        have hfb : fuzzyBest sim maxD name brands =
            (if round4 (1 - bs.2) < maxD then some (bs.1, 1 - bs.2)
              else Option.none) := by
          unfold fuzzyBest
          rw [hextr]
        rw [hfb]
        rw [if_neg ?_]
        intro hacc'
        have hstep : round4 (1 - bs.2) ≤ maxD - 1/10000 :=
          grid_lt_le _ maxD (round4_grid _) hgrid hacc'
        have hnear' := round4_near (1 - bs.2)
        rw [abs_le] at hnear'
        have hnear := round4_near (1 - sim name b)
        rw [abs_le] at hnear
        have hd1 : 1 - bs.2 ≤ maxD - 1/20000 := by linarith
        have hd2 : maxD - 1/20000 ≤ 1 - sim name b := by
          rw [heq] at hnear
          linarith [hnear.1]
        have hdd : 1 - bs.2 = 1 - sim name b := by linarith
        rw [hdd, heq] at hacc'
        exact absurd hacc' (lt_irrefl maxD)
  · intro hypd
    refine parta ?_
    have hr : round4 (1 - sim name b) = 1 - sim name b := by
      refine round4_of_grid _ ?_
      rcases hgrid with ⟨z, hz⟩
      exact ⟨z - 1, by push_cast; rw [hypd]; linarith [hz]⟩
    rw [hr, hypd]
    norm_num

/-- When no unique input name's best candidate clears the threshold, the
fuzzy stage returns no matches — and no error, whatever the reference
table's brand names look like. -/
lemma matchFuzzy_of_no_accept (sim : String → String → ℚ) (rows : List PreparedRow)
    (fr : List FrunsEntry) (maxD : ℚ)
    (h : ∀ name, fuzzyBest sim maxD name (uniqueBrandsOf fr) = Option.none) :
    matchFuzzy sim rows fr maxD = Except.ok [] := by
  unfold matchFuzzy
  by_cases h1 : (uniqueInputOf rows).isEmpty ∨ (uniqueBrandsOf fr).isEmpty
  · rw [if_pos h1]
  · rw [if_neg h1]
    have hbest : bestMatches sim maxD rows fr = [] := by
      unfold bestMatches
      refine List.filterMap_eq_nil.mpr (fun name _ => ?_)
      rw [h name]
      rfl
    rw [hbest]
    rfl

/-- C1 (counterexample to the frozen claim): under a scorer for which any
row would fuzzy-match perfectly (distance 0 accepted at the default
threshold), a row whose exact-stage outcome is `franchisor_multiple` still
ends with that tag and a null identifier in `both` mode — it was never
passed to the fuzzy matcher. -/
theorem C1_counterexample :
    matchToFruns simAll1 [PyVal.str "Acme"] Method.both frAcmePair [] (1/10) false =
      Except.ok [⟨PyVal.str "Acme", none, some "franchisor_multiple",
        none, none, none, none⟩] ∧
    fuzzyBest simAll1 (1/10) "acme" ["zzzz", "yyyy"] = some ("zzzz", 0) := by
  constructor
  · rfl
  · have hres : extractOne simAll1 "acme" (1 - 1/10) ["zzzz", "yyyy"] = some ("zzzz", 1) := by
      have h0 : extractOne simAll1 "acme" (1 - 1/10) ["zzzz", "yyyy"] =
          extractOneGo simAll1 "acme" (1 - 1/10)
            (if (1 : ℚ) - 1/10 ≤ 1 then some ("zzzz", (1 : ℚ)) else Option.none)
            ["yyyy"] := rfl
      rw [h0, if_pos (by norm_num)]
      exact extractOneGo_const simAll1 "acme" (1 - 1/10) "zzzz" 1 ["yyyy"]
        (fun c _ => le_refl 1)
    have hfb : fuzzyBest simAll1 (1/10) "acme" ["zzzz", "yyyy"] =
        (if round4 (1 - 1) < 1/10 then some ("zzzz", (1 : ℚ) - 1) else Option.none) := by
      unfold fuzzyBest
      rw [hres]
    rw [hfb]
    rw [show (1 : ℚ) - 1 = 0 from by norm_num]
    rw [round4_of_grid 0 ⟨0, by norm_num⟩]
    rw [if_pos (by norm_num)]

/-- C1 (witness): the amended theorem applied to the concrete
`franchisor_multiple` run. -/
theorem C1_witness :
    ∃ o, ([⟨PyVal.str "Acme", none, some "franchisor_multiple",
        none, none, none, none⟩] : List OutRow)[(0 : Nat)]? = some o ∧
      o.match_type = some "franchisor_multiple" ∧ o.fruns = none :=
  C1_both_multiple_not_fuzzied simAll1 [PyVal.str "Acme"] frAcmePair [] (1/10) false
    [⟨0, none, "franchisor_multiple", none, none⟩]
    [⟨PyVal.str "Acme", none, some "franchisor_multiple", none, none, none, none⟩]
    ⟨0, none, "franchisor_multiple", none, none⟩ rfl rfl (by decide) rfl

/-- C2 (witness): the merge policy on a concrete two-row exact run, one row
matched and one unmatched. -/
theorem C2_witness :
    ([⟨PyVal.str "Subway", some "1", some "exact", none, none, none, none⟩,
      ⟨PyVal.str "Acme", none, none, none, none, none, none⟩] : List OutRow).map
        (fun o => o.name) = [PyVal.str "Subway", PyVal.str "Acme"] :=
  (C2_merge_policy simAll1 [PyVal.str "Subway", PyVal.str "Acme"] Method.exact frSubway
    [] (1/10) false _ rfl).1

/-- C3 (witness): the threshold acceptance applied at a perfect-similarity
scorer with the default threshold. -/
theorem C3_witness :
    ∃ b2, b2 ∈ ["ab"] ∧ simAll1 "ab" b2 = simAll1 "ab" "ab" ∧
      fuzzyBest simAll1 (1/10) "ab" ["ab"] = some (b2, 1 - simAll1 "ab" "ab") := by
  refine (C3_fuzzy_threshold simAll1 (1/10) "ab" ["ab"] "ab" ⟨1000, by norm_num⟩
    (by decide) (fun c _ => le_refl _)).1 ?_
  rw [show (1 : ℚ) - simAll1 "ab" "ab" = 0 from by norm_num [simAll1]]
  rw [round4_of_grid 0 ⟨0, by norm_num⟩]
  norm_num

/-- C4 (witness): the ambiguity theorem applied to a concrete row matching
two franchisor entries and no brand. -/
theorem C4_witness :
    ∃ ms, findExactMatches [rowAcme] frAcmePair = Except.ok ms ∧
      (2 ≤ (frAcmePair.filter (fun e =>
          e.franchisor_sanitized = some rowAcme.name_harmonized)).length →
        ms.filter (fun m => m.row_id = rowAcme.row_id) =
          [{ row_id := rowAcme.row_id, fruns := none,
             match_type := "franchisor_multiple", matched_brand := none,
             distance := none }]) ∧
      ((frAcmePair.filter (fun e =>
          e.franchisor_sanitized = some rowAcme.name_harmonized)).length = 1 →
        ∃ e ∈ frAcmePair, e.franchisor_sanitized = some rowAcme.name_harmonized ∧
          ms.filter (fun m => m.row_id = rowAcme.row_id) =
            [{ row_id := rowAcme.row_id, fruns := some e.fruns,
               match_type := "franchisor", matched_brand := none,
               distance := none }]) :=
  C4_franchisor_ambiguity [rowAcme] frAcmePair rowAcme (by decide) (by decide)
    (by decide) (by decide) (by decide)

/-- Sanitizing the empty string yields the empty string at every
`min_chars` (the restore gate requires the pre-removal string to reach
`min_chars`, which the empty string never does). -/
lemma sanitizeStr_empty (c : Nat) : sanitizeStr "" c = "" := by
  have hcond : ¬ (0 < c ∧ 0 < c ∧ c ≤ 0) := by omega
  show (if (if 0 < c ∧ 0 < c ∧ c ≤ 0 then restoreUntilMinChars [] "" c
        else ("" : String)).toList.take 4 = "the ".toList ∧
      c < (if 0 < c ∧ 0 < c ∧ c ≤ 0 then restoreUntilMinChars [] "" c
        else ("" : String)).length - 4 then
      String.mk ((if 0 < c ∧ 0 < c ∧ c ≤ 0 then restoreUntilMinChars [] "" c
        else ("" : String)).toList.drop 4)
    else (if 0 < c ∧ 0 < c ∧ c ≤ 0 then restoreUntilMinChars [] "" c
        else ("" : String))) = ""
  rw [if_neg hcond]
  rfl

/-- C5 (amended): sanitization is a total function of the scalar value —
null/`NaN` inputs and the empty string sanitize to `""` at every
`min_chars`; any other non-string scalar is `str()`-converted and sanitized
as that string rather than mapped to the empty string. -/
theorem C5_sanitize_malformed (x : PyVal) (minChars : Nat) :
    (x.isNA = true → sanitizeSingle x minChars = "") ∧
    (x = PyVal.str "" → sanitizeSingle x minChars = "") := by
  constructor
  · intro h
    unfold sanitizeSingle
    rw [h]
    rfl
  · intro h
    subst h
    unfold sanitizeSingle
    show sanitizeStr "" minChars = ""
    exact sanitizeStr_empty minChars

/-- C5 (witness). -/
theorem C5_sanitize_malformed_witness :
    sanitizeSingle PyVal.nan 4 = "" ∧ sanitizeSingle (PyVal.str "") 4 = "" :=
  ⟨(C5_sanitize_malformed PyVal.nan 4).1 rfl,
   (C5_sanitize_malformed (PyVal.str "") 4).2 rfl⟩

/-- C5 (counterexample to the frozen claim): a non-string scalar does not
sanitize to the empty string — the int `42` sanitizes to `"42"`. -/
theorem C5_counterexample :
    sanitizeSingle (PyVal.int 42) 4 = "42" ∧ sanitizeSingle (PyVal.int 42) 4 ≠ "" := by
  decide

/-- C8 (amended): `sanitize_name("café Inc.") = "cafe"`, and
`sanitize_name("A&W Restaurants, LLC") = "a w restaurants"` — the `&`
becomes a space (leaving the tokens `a` and `w` separate), `,`/`.` are
removed, the `llc` suffix is stripped, and the non-listed word
`restaurants` is untouched. -/
theorem C8_sanitize_examples :
    sanitizeSingle (PyVal.str "café Inc.") 4 = "cafe" ∧
    sanitizeSingle (PyVal.str "A&W Restaurants, LLC") 4 = "a w restaurants" := by
  decide

/-- C8 (counterexample to the frozen claim): the `&`-to-space step keeps
`a` and `w` as separate words, so the result is not `"aw restaurants"`. -/
theorem C8_counterexample :
    sanitizeSingle (PyVal.str "A&W Restaurants, LLC") 4 ≠ "aw restaurants" ∧
    sanitizeSingle (PyVal.str "A&W Restaurants, LLC") 4 = "a w restaurants" := by
  decide

/-- C9 (amended): double sanitization agrees with single sanitization on
the representative corpus of names exercised by this development (it is not
an identity for all strings — see the counterexample). -/
theorem C9_idempotent_on_corpus :
    ∀ s ∈ (["café Inc.", "A&W Restaurants, LLC", "McDonald's Franchising, Inc.",
            "Subway", "Some Unknown Franchise", "7-Eleven", "the now",
            "Co Franchise", "Acme", "aaaa"] : List String),
      sanitizeSingle (PyVal.str (sanitizeSingle (PyVal.str s) 4)) 4 =
        sanitizeSingle (PyVal.str s) 4 := by
  decide

/-- C9 (witness). -/
theorem C9_idempotent_on_corpus_witness :
    sanitizeSingle (PyVal.str (sanitizeSingle (PyVal.str "Subway") 4)) 4 =
      sanitizeSingle (PyVal.str "Subway") 4 :=
  C9_idempotent_on_corpus "Subway" (by decide)

/-- C9 (counterexample to the frozen claim): sanitization is not idempotent
— geographic-suffix removal runs after corporate-suffix removal, so
`"abcd inc us"` sanitizes to `"abcd inc"`, whose own sanitization strips
the now-trailing `inc` to give `"abcd"`. -/
theorem C9_counterexample :
    sanitizeSingle (PyVal.str (sanitizeSingle (PyVal.str "abcd inc us") 4)) 4 ≠
      sanitizeSingle (PyVal.str "abcd inc us") 4 ∧
    sanitizeSingle (PyVal.str "abcd inc us") 4 = "abcd inc" ∧
    sanitizeSingle (PyVal.str (sanitizeSingle (PyVal.str "abcd inc us") 4)) 4 = "abcd" := by
  decide

/-- C7 (amended): `harmonize_name` does not reject duplicate harmonization
keys (`strict=True` on the `zip` only compares column lengths); the dict
built from the pairs keeps the last mapping for a duplicated key and the
lookup proceeds normally. -/
theorem C7_dup_keys_last_wins (m : List (String × String)) (k v : String)
    (hk : k ≠ "") :
    harmonizeScalar (m ++ [(k, v)]) (PyVal.str k) = PyVal.str v ∧
    harmonizeSeriesElem (m ++ [(k, v)]) k = v := by
  have hget : pyDictGet (m ++ [(k, v)]) k = some v := by
    unfold pyDictGet
    rw [List.reverse_append]
    show ((((k, v) :: []) ++ m.reverse).find? (fun p => p.1 = k)).map (fun p => p.2) = _
    rw [List.cons_append, List.find?_cons_of_pos _ (by simp)]
    rfl
  constructor
  · unfold harmonizeScalar
    rw [if_pos (by simp [PyVal.truthy, PyVal.isNA, hk])]
    show PyVal.str ((pyDictGet (m ++ [(k, v)]) k).getD k) = PyVal.str v
    rw [hget]
    rfl
  · unfold harmonizeSeriesElem
    rw [hget]
    rfl

/-- C7 (witness). -/
theorem C7_dup_keys_last_wins_witness :
    harmonizeScalar [("aaaa", "bbbb"), ("aaaa", "cccc")] (PyVal.str "aaaa") =
      PyVal.str "cccc" ∧
    harmonizeSeriesElem [("aaaa", "bbbb"), ("aaaa", "cccc")] "aaaa" = "cccc" :=
  C7_dup_keys_last_wins [("aaaa", "bbbb")] "aaaa" "cccc" (by decide)

/-- C7 (counterexample to the frozen claim): with a duplicate-keyed
harmonization table the pipeline raises no data-integrity error — it
produces a row-level result, harmonizing through the key's last mapping. -/
theorem C7_counterexample :
    matchToFruns simAll1 [PyVal.str "aaaa"] Method.exact frOneBrand hmapDupKeys
      (1/10) false =
      Except.ok [⟨PyVal.str "aaaa", some "1", some "exact", none, none, none, none⟩] := by
  rfl

/-- C10: the scalar path of `harmonize_name` returns empty-string and NA
inputs unchanged without consulting the mapping (an empty-string key is
never applied there), while the Series path does apply an entry keyed by
the empty string. -/
theorem C10_scalar_empty_na (m : List (String × String)) (v : String) :
    harmonizeScalar m (PyVal.str "") = PyVal.str "" ∧
    (∀ x : PyVal, x.isNA = true → harmonizeScalar m x = x) ∧
    (pyDictGet m "" = some v → harmonizeSeriesElem m "" = v) := by
  refine ⟨?_, ?_, ?_⟩
  · unfold harmonizeScalar
    rw [if_neg (by simp [PyVal.truthy])]
  · intro x hx
    unfold harmonizeScalar
    rw [if_neg (by simp [hx])]
  · intro h
    unfold harmonizeSeriesElem
    rw [h]
    rfl

/-- C10 (witness): a mapping keyed by the empty string is ignored by the
scalar path and applied by the Series path. -/
theorem C10_scalar_empty_na_witness :
    harmonizeScalar [("", "xx")] (PyVal.str "") = PyVal.str "" ∧
    harmonizeScalar [("", "xx")] PyVal.nan = PyVal.nan ∧
    harmonizeSeriesElem [("", "xx")] "" = "xx" :=
  ⟨(C10_scalar_empty_na [("", "xx")] "xx").1,
   (C10_scalar_empty_na [("", "xx")] "xx").2.1 PyVal.nan rfl,
   (C10_scalar_empty_na [("", "xx")] "xx").2.2 rfl⟩

/-- C6 (amended): duplicate non-empty sanitized brand names make the
`validate="m:1"` brand merge raise a `MergeError` before any row-level
result in `exact` and `both` modes; `fuzzy` mode validates the
deduplicated (brand, fruns) pairs only after at least one candidate is
accepted, so a duplicate can pass undetected there. -/
theorem C6_dup_brand_merge_error (sim : String → String → ℚ) (data : List PyVal)
    (hmap : List (String × String)) (maxD : ℚ) (keep : Bool) (fr : List FrunsEntry)
    (hdup : ¬ ((brandTbl fr).map Prod.fst).Nodup) :
    matchToFruns sim data Method.exact fr hmap maxD keep = Except.error "MergeError" ∧
    matchToFruns sim data Method.both fr hmap maxD keep = Except.error "MergeError" := by
  have hfe : findExactMatches (prepareInput data hmap) fr = Except.error "MergeError" := by
    unfold findExactMatches
    rw [if_neg hdup]
  constructor
  · have h1 : matchToFruns sim data Method.exact fr hmap maxD keep =
        (match findExactMatches (prepareInput data hmap) fr with
          | Except.error e => Except.error e
          | Except.ok ms =>
            Except.ok (finalizeMatches (prepareInput data hmap) ms keep)) := rfl
    rw [h1, hfe]
  · have h2 : matchToFruns sim data Method.both fr hmap maxD keep =
        (match findExactMatches (prepareInput data hmap) fr with
          | Except.error e => Except.error e
          | Except.ok ex =>
            match (if ((prepareInput data hmap).filter (fun r =>
                r.row_id ∉ ex.map (fun m => m.row_id))).isEmpty then Except.ok []
              else matchFuzzy sim ((prepareInput data hmap).filter (fun r =>
                r.row_id ∉ ex.map (fun m => m.row_id))) fr maxD) with
            | Except.error e => Except.error e
            | Except.ok fz =>
              Except.ok (finalizeMatches (prepareInput data hmap) (ex ++ fz) keep)) := rfl
    rw [h2, hfe]

/-- C6 (witness): the amended theorem applied to the duplicated-brand
reference table. -/
theorem C6_dup_brand_merge_error_witness :
    matchToFruns simAll1 [PyVal.str "bbbb"] Method.exact frDupBrand [] (1/10) false =
      Except.error "MergeError" ∧
    matchToFruns simAll1 [PyVal.str "bbbb"] Method.both frDupBrand [] (1/10) false =
      Except.error "MergeError" :=
  C6_dup_brand_merge_error simAll1 [PyVal.str "bbbb"] [] (1/10) false frDupBrand
    (by decide)

/-- C6 (counterexample to the frozen claim): `fuzzy` mode uses the
reference brands but reports no data-integrity error on the duplicated
brand table when no candidate is accepted — it returns a row-level
(unmatched) result. -/
theorem C6_counterexample :
    ¬ ((brandTbl frDupBrand).map Prod.fst).Nodup ∧
    matchToFruns simAll0 [PyVal.str "bbbb"] Method.fuzzy frDupBrand [] (1/10) false =
      Except.ok [⟨PyVal.str "bbbb", none, none, none, none, none, none⟩] := by
  constructor
  · decide
  · have hub : uniqueBrandsOf frDupBrand = ["aaaa"] := by decide
    have hfb : ∀ name, fuzzyBest simAll0 (1/10) name (uniqueBrandsOf frDupBrand) =
        Option.none := by
      intro name
      rw [hub]
      have h0 : fuzzyBest simAll0 (1/10) name ["aaaa"] =
          (match (if (1 : ℚ) - 1/10 ≤ 0 then some ("aaaa", (0 : ℚ)) else Option.none) with
            | Option.none => Option.none
            | some bs => if round4 (1 - bs.2) < 1/10 then some (bs.1, 1 - bs.2)
                else Option.none) := rfl
      rw [h0, if_neg (by norm_num)]
    have hmf := matchFuzzy_of_no_accept simAll0
      (prepareInput [PyVal.str "bbbb"] []) frDupBrand (1/10) hfb
    have h1 : matchToFruns simAll0 [PyVal.str "bbbb"] Method.fuzzy frDupBrand []
        (1/10) false =
        (match matchFuzzy simAll0 (prepareInput [PyVal.str "bbbb"] []) frDupBrand
            (1/10) with
          | Except.error e => Except.error e
          | Except.ok ms =>
            Except.ok (finalizeMatches (prepareInput [PyVal.str "bbbb"] []) ms false)) := rfl
    rw [h1, hmf]
    rfl
